import Mathlib

/-!
# Verification of the `diffgeom` tensor-calculus engine

This file gives a shallow embedding of the core of the `diffgeom` Python
package (`diffgeom/indexed.py`, `diffgeom/manifold.py`, and the legacy
duplicate module `diffgeom/diffgeom.py`) and proves properties of it.

Modelling conventions:

* Symbolic expressions (sympy) are the package's external collaborator; they
  are modelled as elements of an arbitrary field `R` with decidable equality
  (the engine's equality test, which the core uses for its "drop zero
  entries" canonicalisation).  The engine's partial derivative `sp.diff` is
  an arbitrary function `pdiff : Sym → R → R`, its `sp.simplify` an
  arbitrary function `R → R`, and its matrix inverse `Matrix.inv` an
  arbitrary function on shaped matrices returning `Except` (it can fail on
  non-square or singular input).
* A Python dict is modelled as an association list in insertion order.
  Writing to an existing key replaces its binding in place; `del` removes
  the binding of the key (keys of a dict are unique, so removing every
  binding of the key is the same operation).
* CPython raises `RuntimeError` from a dict iterator whose dictionary
  changed size since the iterator was created; the check happens at every
  `next()` call, including the final one.  The loops of `__rmul__`,
  `__mul__` (scalar branch) and `simplify`, which write back into the dict
  being iterated, are modelled by `iterWriteAux`, which carries the
  "size changed" flag.
* Python exceptions are collapsed into the `PyErr` type.
-/

namespace DG

/-- A translated multi-index: a tuple of integer indices. -/
abbrev Idx : Type := List Nat

/-- The Python exceptions the core can raise: `KeyError` (unknown index
name), `IndexError` (sequence index out of range), `RuntimeError`
(dictionary changed size during iteration),
`IncompatibleIndexPositionException`, and errors propagated from the
symbolic engine (non-square or singular matrix inversion). -/
inductive PyErr : Type
  | keyError
  | indexError
  | runtimeError
  | incompatiblePosition
  | engineError
  deriving DecidableEq

/-- One character of an `idx_pos` signature string: `'u'` or `'l'`. -/
inductive IdxPos : Type
  | u
  | l
  deriving DecidableEq

section Dict

variable {K : Type} [DecidableEq K] {V : Type}

/-- Dict lookup: the value bound to `k`, if any. -/
def lookupA : List (K × V) → K → Option V
  | [], _ => none
  | p :: rest, k => if p.1 = k then some p.2 else lookupA rest k

/-- Dict assignment `d[k] = v`: replace the binding of `k` in place if
present, otherwise append a new binding. -/
def assignA : List (K × V) → K → V → List (K × V)
  | [], k, v => [(k, v)]
  | p :: rest, k, v => if p.1 = k then (k, v) :: rest else p :: assignA rest k v

/-- Dict deletion `del d[k]`: remove the binding of `k`. -/
def eraseA : List (K × V) → K → List (K × V)
  | [], _ => []
  | p :: rest, k => if p.1 = k then eraseA rest k else p :: eraseA rest k

/-- The keys of a dict are distinct. -/
def NodupKeys (l : List (K × V)) : Prop := (l.map Prod.fst).Nodup

instance (l : List (K × V)) : Decidable (NodupKeys l) := by
  unfold NodupKeys; infer_instance

end Dict

section Values

variable {R : Type} [Field R] [DecidableEq R]

/-- The sparse `values` dict of an `IndexedObject`: index tuple to value. -/
abbrev Vals (R : Type) : Type := List (Idx × R)

/-- `__getitem__` after index translation:
`self.values.get(m_idx, 0)` — the stored value, or zero if absent. -/
def getv (vals : Vals R) (k : Idx) : R := (lookupA vals k).getD 0

/-- `__setitem__` after index translation:
`self.values[m_idx] = value`, then `del self.values[m_idx]` if the value
equals zero (the engine's equality test). -/
def setItem (vals : Vals R) (k : Idx) (v : R) : Vals R :=
  let assigned := assignA vals k v
  if v = 0 then eraseA assigned k else assigned

/-- `result[k] += v` (a `__getitem__` followed by a `__setitem__`). -/
def addAt (vals : Vals R) (k : Idx) (v : R) : Vals R :=
  setItem vals k (getv vals k + v)

/-- `result[k] -= v` (a `__getitem__` followed by a `__setitem__`). -/
def subAt (vals : Vals R) (k : Idx) (v : R) : Vals R :=
  setItem vals k (getv vals k - v)

/-- The canonical-sparse invariant: no stored value equals zero. -/
def ZeroFree (vals : Vals R) : Prop := ∀ p ∈ vals, p.2 ≠ (0 : R)

instance (vals : Vals R) : Decidable (ZeroFree vals) := by
  unfold ZeroFree; infer_instance

end Values

section Folds

variable {α β γ : Type}

/-- Concatenation of the blocks `F a` for `a ∈ L`, in order: the iteration
sequence of a nested `for` loop. -/
def flatL : List α → (α → List β) → List β
  | [], _ => []
  | a :: rest, F => F a ++ flatL rest F

end Folds

section ValFolds

variable {R : Type} [Field R] [DecidableEq R]

/-- One `result[k] += v` step, for folding over a list of `(key, value)`
pairs. -/
def addStep (vals : Vals R) (p : Idx × R) : Vals R := addAt vals p.1 p.2

/-- One `result[k] = v` step. -/
def setStep (vals : Vals R) (p : Idx × R) : Vals R := setItem vals p.1 p.2

/-- The sum of the values of the pairs of `L` whose key is `k`. -/
def keySum (L : List (Idx × R)) (k : Idx) : R :=
  L.foldr (fun p acc => if p.1 = k then p.2 + acc else acc) 0

end ValFolds

section Core

variable {R : Type} [Field R] [DecidableEq R]
variable {Sym : Type} [DecidableEq Sym] [Inhabited Sym]

/-- `itertools.product(range(n), repeat=r)`: all index tuples of length `r`
with entries below `n`, leftmost slot varying slowest. -/
def multiIndices (n : Nat) : Nat → List Idx
  | 0 => [[]]
  | r + 1 => flatL (List.range n) (fun i => (multiIndices n r).map (fun m => i :: m))

/-- One pass of a Python `for key, value in d.items():` loop that writes
`d[key] = f(key, value)` back into `d` while iterating.  The `Bool` flag
records whether the dictionary changed size at the previous step; CPython's
dict iterator checks this at every `next()` call (including the terminal
one) and raises `RuntimeError` if so.  A write of a nonzero value replaces
in place (no size change); a write of zero deletes the entry. -/
def iterWriteAux (f : Idx → R → R) : List (Idx × R) → Vals R → Bool → Except PyErr (Vals R)
  | [], vs, changed => if changed then .error .runtimeError else .ok vs
  | p :: rest, vs, changed =>
    if changed then .error .runtimeError
    else iterWriteAux f rest (setItem vs p.1 (f p.1 p.2)) (decide (f p.1 p.2 = 0))

/-- `IndexedObject.simplify`: `for key, value in self.values.items():
self[key] = sp.simplify(value)`, where `sp.simplify` is the engine's
simplifier `simpf`. -/
def simplifyVals (simpf : R → R) (vals : Vals R) : Except PyErr (Vals R) :=
  iterWriteAux (fun _ v => simpf v) vals vals false

/-- Sequencing of fallible computations over a list (models a Python loop
or comprehension whose body may raise). -/
def mapE {α β : Type} (f : α → Except PyErr β) : List α → Except PyErr (List β)
  | [] => .ok []
  | a :: rest => do
    let b ← f a
    let bs ← mapE f rest
    .ok (b :: bs)

/-- Python sequence subscription `l[i]`: `IndexError` when out of range. -/
def listGetE {α : Type} (l : List α) (i : Nat) : Except PyErr α :=
  match l.get? i with
  | some a => .ok a
  | none => .error .indexError

/-- One slot of a user-facing multi-index: either an integer (passed
through untranslated) or a coordinate name (resolved via `names_map`). -/
inductive Slot (Sym : Type) : Type
  | num (i : Nat)
  | name (s : Sym)

/-- `_translate_multi_idx` on one slot: `isinstance(idx, int)` passes the
integer through unchecked; otherwise `self.names_map[idx]`, whose failure
is a `KeyError`. -/
def translateSlot (nm : List (Sym × Nat)) : Slot Sym → Except PyErr Nat
  | .num i => .ok i
  | .name s =>
    match lookupA nm s with
    | some k => .ok k
    | none => .error .keyError

/-- `_translate_multi_idx` over a full multi-index. -/
def translateMulti (nm : List (Sym × Nat)) (slots : List (Slot Sym)) : Except PyErr Idx :=
  mapE (translateSlot nm) slots

/-- The integer a slot translates to when translation succeeds. -/
def slotFn (nm : List (Sym × Nat)) : Slot Sym → Nat
  | .num i => i
  | .name s => (lookupA nm s).getD 0

/-- `names_map = {n: k for k, n in enumerate(names)}`. -/
def namesMapOf (coords : List Sym) : List (Sym × Nat) :=
  coords.enum.foldl (fun m p => assignA m p.2 p.1) []

/-- A sympy matrix of expressions, with an explicit shape. -/
structure MatS (R : Type) : Type where
  rows : Nat
  cols : Nat
  entry : Nat → Nat → R

/-- Matrix subscription `g[i, j]`: `IndexError` out of shape. -/
def MatS.get (M : MatS R) (i j : Nat) : Except PyErr R :=
  if i < M.rows ∧ j < M.cols then .ok (M.entry i j) else .error .indexError

/-- `IndexedObject.__init__` of `diffgeom/indexed.py`: copy the initial
`values` mapping, skipping entries whose value equals zero. -/
def initVals (values : Vals R) : Vals R :=
  values.foldl (fun a p => if p.2 ≠ 0 then assignA a p.1 p.2 else a) []

/-- `IndexedObject.__init__` of the legacy duplicate module
`diffgeom/diffgeom.py`: copy the initial `values` mapping unconditionally
(no zero filter). -/
def initValsLegacy (values : Vals R) : Vals R :=
  values.foldl (fun a p => assignA a p.1 p.2) []

/-- A `Manifold`: the stored metric matrix `self._metric`, the coordinate
tuple, and the Christoffel symbols `self.gammas` computed at
construction. -/
structure Manifold (R Sym : Type) : Type where
  metricMat : MatS R
  coords : List Sym
  gammas : Vals R

/-- `Manifold.dims = len(self.coords)`. -/
def Manifold.dims (M : Manifold R Sym) : Nat := M.coords.length

/-- A `Tensor`: the owning manifold, the `idx_pos` signature, and the
sparse `values` dict. -/
structure Tensor (R Sym : Type) : Type where
  man : Manifold R Sym
  idxPos : List IdxPos
  vals : Vals R

/-- `Tensor.rank = len(self.idx_pos)`. -/
def Tensor.rank (T : Tensor R Sym) : Nat := T.idxPos.length

/-- `Tensor.dims`, delegating to the owning manifold. -/
def Tensor.dims (T : Tensor R Sym) : Nat := T.man.dims

/-- `Tensor.__init__`: store manifold and signature and run the
`IndexedObject` initialiser on the initial values. -/
def Tensor.make (man : Manifold R Sym) (pos : List IdxPos) (values : Vals R) :
    Tensor R Sym :=
  ⟨man, pos, initVals values⟩

/-- `IndexedObject.__getitem__` with name translation:
`self.values.get(self._translate_multi_idx(m_idx), 0)`. -/
def getItemE (nm : List (Sym × Nat)) (vals : Vals R) (slots : List (Slot Sym)) :
    Except PyErr R :=
  (translateMulti nm slots).map (fun k => getv vals k)

/-- `__getitem__` on a tensor (its `names_map` is built from the owning
manifold's coordinates). -/
def Tensor.getItem (T : Tensor R Sym) (slots : List (Slot Sym)) : Except PyErr R :=
  getItemE (namesMapOf T.man.coords) T.vals slots

/-- One `result[k] -= v` step, for folding. -/
def subStep (vals : Vals R) (p : Idx × R) : Vals R := subAt vals p.1 p.2

/-- `Tensor.__add__`: guard on identical signatures, copy `self`'s entries,
then `result[m] += value` for `other`'s entries.  Only the signatures are
compared; the manifolds are not. -/
def Tensor.add (A B : Tensor R Sym) : Except PyErr (Tensor R Sym) :=
  if A.idxPos ≠ B.idxPos then .error .incompatiblePosition
  else .ok ⟨A.man, A.idxPos, B.vals.foldl addStep (A.vals.foldl setStep [])⟩

/-- `Tensor.__sub__`: as `__add__` with `result[m] -= value`. -/
def Tensor.sub (A B : Tensor R Sym) : Except PyErr (Tensor R Sym) :=
  if A.idxPos ≠ B.idxPos then .error .incompatiblePosition
  else .ok ⟨A.man, A.idxPos, B.vals.foldl subStep (A.vals.foldl setStep [])⟩

/-- `Tensor.__rmul__(other)` (evaluating `other * self` for a scalar
`other`): deep-copy `self`, then `result[key] *= other` for every entry of
the copy's dict, while iterating over that same dict. -/
def Tensor.rmul (c : R) (A : Tensor R Sym) : Except PyErr (Tensor R Sym) :=
  (iterWriteAux (fun _ v => v * c) A.vals A.vals false).map
    (fun vs => ⟨A.man, A.idxPos, vs⟩)

/-- The scalar branch of `Tensor.__mul__(other)` (evaluating `self * other`
when `other` is not a `Tensor`): same loop as `__rmul__`. -/
def Tensor.mulScalar (A : Tensor R Sym) (c : R) : Except PyErr (Tensor R Sym) :=
  (iterWriteAux (fun _ v => v * c) A.vals A.vals false).map
    (fun vs => ⟨A.man, A.idxPos, vs⟩)

/-- The iteration sequence `(i, j)` of the dict comprehension in
`Manifold.metric` / `Manifold.metric_inv`. -/
def pairList (n : Nat) : List (Nat × Nat) :=
  flatL (List.range n) (fun i => (List.range n).map (fun j => (i, j)))

/-- The `Manifold.metric` property: a fresh rank-2 lower-lower tensor with
values `{(i, j): self._metric[i, j]}`. -/
def Manifold.metric (M : Manifold R Sym) : Except PyErr (Tensor R Sym) := do
  let entries ← mapE (fun p => do
    let v ← M.metricMat.get p.1 p.2
    Except.ok (([p.1, p.2] : Idx), v)) (pairList M.dims)
  Except.ok (Tensor.make M [IdxPos.l, IdxPos.l] entries)

/-- The `Manifold.metric_inv` property: `self._metric.inv()` through the
engine, wrapped as a rank-2 upper-upper tensor. -/
def Manifold.metricInv (eInv : MatS R → Except PyErr (MatS R)) (M : Manifold R Sym) :
    Except PyErr (Tensor R Sym) := do
  let inv ← eInv M.metricMat
  let entries ← mapE (fun p => do
    let v ← inv.get p.1 p.2
    Except.ok (([p.1, p.2] : Idx), v)) (pairList M.dims)
  Except.ok (Tensor.make M [IdxPos.u, IdxPos.u] entries)

/-- `Tensor.lower_index(idx)`: guard that the slot is not already lower,
fetch the metric tensor, and accumulate
`result[m] += g[m[idx], sigma] * self[m with idx := sigma]`. -/
def Tensor.lowerIndex (T : Tensor R Sym) (idx : Nat) : Except PyErr (Tensor R Sym) := do
  let pos ← listGetE T.idxPos idx
  if pos = IdxPos.l then .error .incompatiblePosition
  else do
    let gT ← Manifold.metric T.man
    Except.ok ⟨T.man, T.idxPos.set idx IdxPos.l,
      (multiIndices T.dims T.rank).foldl (fun vs m =>
        (List.range T.dims).foldl (fun vs sigma =>
          addAt vs m (getv gT.vals [m.getD idx 0, sigma] * getv T.vals (m.set idx sigma)))
          vs) []⟩

/-- `Tensor.raise_index(idx)`: as `lower_index` with the inverse metric. -/
def Tensor.raiseIndex (eInv : MatS R → Except PyErr (MatS R)) (T : Tensor R Sym)
    (idx : Nat) : Except PyErr (Tensor R Sym) := do
  let pos ← listGetE T.idxPos idx
  if pos = IdxPos.u then .error .incompatiblePosition
  else do
    let gI ← Manifold.metricInv eInv T.man
    Except.ok ⟨T.man, T.idxPos.set idx IdxPos.u,
      (multiIndices T.dims T.rank).foldl (fun vs m =>
        (List.range T.dims).foldl (fun vs sigma =>
          addAt vs m (getv gI.vals [m.getD idx 0, sigma] * getv T.vals (m.set idx sigma)))
          vs) []⟩

/-- The accumulated value written by `Tensor.diff` at `(m, sigma)`: the
partial derivative of `self[m]`, plus one `+Γ` correction per upper slot
and one `−Γ` correction per lower slot, each summed over a dummy index. -/
def diffValue (T : Tensor R Sym) (pdiff : Sym → R → R) (m : Idx) (sigma : Nat) : R :=
  (List.range T.rank).foldl (fun value idx =>
    if T.idxPos.getD idx IdxPos.l = IdxPos.u then
      (List.range T.dims).foldl (fun v alpha =>
        v + getv T.vals (m.set idx alpha) * getv T.man.gammas [m.getD idx 0, alpha, sigma])
        value
    else
      (List.range T.dims).foldl (fun v alpha =>
        v - getv T.vals (m.set idx alpha) * getv T.man.gammas [alpha, m.getD idx 0, sigma])
        value)
    (pdiff (T.man.coords.getD sigma default) (getv T.vals m))

/-- `Tensor.diff()`: the covariant derivative, a tensor with one extra
trailing lower slot whose entry at `m ++ [sigma]` is `diffValue`. -/
def Tensor.diff (pdiff : Sym → R → R) (T : Tensor R Sym) : Tensor R Sym :=
  ⟨T.man, T.idxPos ++ [IdxPos.l],
    (multiIndices T.dims T.rank).foldl (fun vs m =>
      (List.range T.dims).foldl (fun vs sigma =>
        setItem vs (m ++ [sigma]) (diffValue T pdiff m sigma)) vs) []⟩

/-- `Christoffel.__init__`: invert the metric through the engine, then for
every `(mu, alpha, beta)` accumulate
`gamma += g_inv[mu, nu] * (diff(g[alpha, nu], x[beta]) +
diff(g[nu, beta], x[alpha]) - diff(g[alpha, beta], x[nu]))` over `nu` and
store `gamma / 2` when `gamma` is nonzero.  Matrix subscriptions raise
`IndexError` out of shape, exactly as in sympy. -/
def christoffel (eInv : MatS R → Except PyErr (MatS R)) (pdiff : Sym → R → R)
    (coords : List Sym) (g : MatS R) : Except PyErr (Vals R) := do
  let x := coords
  let n := x.length
  let ginv ← eInv g
  (List.range n).foldlM (fun vals mu =>
    (List.range n).foldlM (fun vals alpha =>
      (List.range n).foldlM (fun vals beta => do
        let gamma ← (List.range n).foldlM (fun gamma nu => do
          let gmn ← ginv.get mu nu
          let gan ← g.get alpha nu
          let gnb ← g.get nu beta
          let gab ← g.get alpha beta
          Except.ok (gamma + gmn * (pdiff (x.getD beta default) gan +
            pdiff (x.getD alpha default) gnb - pdiff (x.getD nu default) gab)))
          (0 : R)
        Except.ok (if gamma ≠ 0 then setItem vals [mu, alpha, beta] (gamma / 2) else vals))
        vals)
      vals)
    []

/-- The inner `gamma` accumulation of the Christoffel loop at a fixed
`(mu, alpha, beta)`. -/
def chGammaRaw (pdiff : Sym → R → R) (coords : List Sym) (g ginv : MatS R)
    (mu alpha beta : Nat) : R :=
  (List.range coords.length).foldl (fun gamma nu =>
    gamma + ginv.entry mu nu * (pdiff (coords.getD beta default) (g.entry alpha nu) +
      pdiff (coords.getD alpha default) (g.entry nu beta) -
      pdiff (coords.getD nu default) (g.entry alpha beta))) (0 : R)

/-- The write (at most one) performed by the Christoffel loop at a fixed
`(mu, alpha, beta)`. -/
def chBlock (pdiff : Sym → R → R) (coords : List Sym) (g ginv : MatS R)
    (mu alpha beta : Nat) : Vals R :=
  if chGammaRaw pdiff coords g ginv mu alpha beta ≠ 0 then
    [(([mu, alpha, beta] : Idx), chGammaRaw pdiff coords g ginv mu alpha beta / 2)]
  else []

/-- The flattened write sequence of the Christoffel loop. -/
def chFlat (pdiff : Sym → R → R) (coords : List Sym) (g ginv : MatS R) : Vals R :=
  flatL (List.range coords.length) (fun mu =>
    flatL (List.range coords.length) (fun alpha =>
      flatL (List.range coords.length) (fun beta =>
        chBlock pdiff coords g ginv mu alpha beta)))

/-- The pure value of the `Christoffel.__init__` loop when every matrix
subscription is in range (shown in `christoffel_ok`). -/
def christoffelLoop (pdiff : Sym → R → R) (coords : List Sym) (g ginv : MatS R) : Vals R :=
  (List.range coords.length).foldl (fun vals mu =>
    (List.range coords.length).foldl (fun vals alpha =>
      (List.range coords.length).foldl (fun vals beta =>
        if chGammaRaw pdiff coords g ginv mu alpha beta ≠ 0 then
          setItem vals [mu, alpha, beta] (chGammaRaw pdiff coords g ginv mu alpha beta / 2)
        else vals)
        vals)
      vals)
    []

/-- `Manifold.__init__(metric, coords)`: store the metric and coordinates
and compute the Christoffel connection eagerly. -/
def Manifold.make (eInv : MatS R → Except PyErr (MatS R)) (pdiff : Sym → R → R)
    (metric : MatS R) (coords : List Sym) : Except PyErr (Manifold R Sym) := do
  let gammas ← christoffel eInv pdiff coords metric
  Except.ok ⟨metric, coords, gammas⟩

/-- The accumulation loop of `RiemannTensor.__init__` (before the final
`simplify`): for every `(alpha, beta, mu, nu)`,
`self[...] += diff(C[alpha, beta, nu], x[mu]) - diff(C[alpha, beta, mu], x[nu])`,
then `+= C[alpha, sigma, mu] * C[sigma, beta, nu]` and
`-= C[alpha, sigma, nu] * C[sigma, beta, mu]` over `sigma`. -/
def riemannAssemble (M : Manifold R Sym) (pdiff : Sym → R → R) : Vals R :=
  (List.range M.dims).foldl (fun vs alpha =>
    (List.range M.dims).foldl (fun vs beta =>
      (List.range M.dims).foldl (fun vs mu =>
        (List.range M.dims).foldl (fun vs nu =>
          (List.range M.dims).foldl (fun vs sigma =>
            subAt (addAt vs [alpha, beta, mu, nu]
                (getv M.gammas [alpha, sigma, mu] * getv M.gammas [sigma, beta, nu]))
              [alpha, beta, mu, nu]
              (getv M.gammas [alpha, sigma, nu] * getv M.gammas [sigma, beta, mu]))
            (addAt vs [alpha, beta, mu, nu]
              (pdiff (M.coords.getD mu default) (getv M.gammas [alpha, beta, nu]) -
                pdiff (M.coords.getD nu default) (getv M.gammas [alpha, beta, mu]))))
          vs) vs) vs) []

/-- The flattened write sequence of the Riemann accumulation loop (proof
infrastructure; shown equal to `riemannAssemble` below). -/
def riemannFlat (M : Manifold R Sym) (pdiff : Sym → R → R) : Vals R :=
  flatL (List.range M.dims) (fun alpha =>
    flatL (List.range M.dims) (fun beta =>
      flatL (List.range M.dims) (fun mu =>
        flatL (List.range M.dims) (fun nu =>
          (([alpha, beta, mu, nu] : Idx),
            pdiff (M.coords.getD mu default) (getv M.gammas [alpha, beta, nu]) -
              pdiff (M.coords.getD nu default) (getv M.gammas [alpha, beta, mu])) ::
          flatL (List.range M.dims) (fun sigma =>
            [(([alpha, beta, mu, nu] : Idx),
                getv M.gammas [alpha, sigma, mu] * getv M.gammas [sigma, beta, nu]),
             (([alpha, beta, mu, nu] : Idx),
                -(getv M.gammas [alpha, sigma, nu] * getv M.gammas [sigma, beta, mu]))])))))

/-- The metric matrix `diag(1, s²)` of the unit 2-sphere, where `s` stands
for `sin θ`. -/
def sphereMetric (s : R) : MatS R :=
  ⟨2, 2, fun i j => if i = 0 ∧ j = 0 then 1 else if i = 1 ∧ j = 1 then s * s else 0⟩

/-- `RiemannTensor.__init__`: run the accumulation loop on an empty
`ulll`-tensor, then `self.simplify()` with the engine's simplifier. -/
def RiemannTensor.build (M : Manifold R Sym) (pdiff : Sym → R → R) (simpf : R → R) :
    Except PyErr (Tensor R Sym) :=
  (simplifyVals simpf (riemannAssemble M pdiff)).map
    (fun vs => ⟨M, [IdxPos.u, IdxPos.l, IdxPos.l, IdxPos.l], vs⟩)

/-- The concrete field used for witnesses: arithmetic in `ZMod 13` is
decidable by evaluation. -/
abbrev K : Type := ZMod 13

instance : Fact (Nat.Prime 13) := ⟨by norm_num⟩

/-- Concrete sample: the 2×2 identity matrix. -/
def matId2 : MatS K := ⟨2, 2, fun i j => if i = j then 1 else 0⟩

/-- Concrete sample engine inverse: returns the 2×2 identity (the true
inverse of `matId2`). -/
def eInvId2 : MatS K → Except PyErr (MatS K) := fun _ => .ok matId2

/-- Concrete sample engine derivative: everything is constant. -/
def pdiffZero : Nat → K → K := fun _ _ => 0

/-- Unwrap a computation known to succeed (with a default for the error
case); used to name concrete constructed objects. -/
def okD {α : Type} (x : Except PyErr α) (d : α) : α :=
  match x with
  | .ok a => a
  | .error _ => d

/-- Concrete sample: the Euclidean plane in Cartesian coordinates, as
constructed by `Manifold.make`. -/
def sampleM1 : Manifold K Nat :=
  ⟨matId2, [0, 1], okD (christoffel eInvId2 pdiffZero [0, 1] matId2) []⟩

/-- Concrete sample tensor with one stored entry. -/
def sampleT0 : Tensor K Nat := ⟨sampleM1, [IdxPos.u], [([0], 1)]⟩

/-- Concrete sample: the 3×3 identity matrix. -/
def matId3 : MatS K := ⟨3, 3, fun i j => if i = j then 1 else 0⟩

/-- Concrete sample engine inverse returning the 3×3 identity (the true
inverse of `matId3`). -/
def eInvId3 : MatS K → Except PyErr (MatS K) := fun _ => .ok matId3

/-- Concrete sample engine inverse honouring the engine contract: it
inverts 2×2 matrices (here: the identity) and rejects anything else. -/
def eInvSq2 : MatS K → Except PyErr (MatS K) := fun M =>
  if M.rows = 2 ∧ M.cols = 2 then .ok matId2 else .error .engineError

/-- Concrete sample: the diagonal metric `diag(2, 3)`. -/
def matDiag23 : MatS K :=
  ⟨2, 2, fun i j => if i = 0 ∧ j = 0 then 2 else if i = 1 ∧ j = 1 then 3 else 0⟩

/-- Concrete sample: the diagonal inverse of `matDiag23` (in `ZMod 13`,
`2⁻¹ = 7` and `3⁻¹ = 9`). -/
def giDiag23 : MatS K :=
  ⟨2, 2, fun i j => if i = 0 ∧ j = 0 then 7 else if i = 1 ∧ j = 1 then 9 else 0⟩

/-- Concrete sample engine inverse for `matDiag23`. -/
def eInvDiag23 : MatS K → Except PyErr (MatS K) := fun _ => .ok giDiag23

/-- Concrete sample manifold with the `diag(2, 3)` metric. -/
def sampleM7 : Manifold K Nat := ⟨matDiag23, [0, 1], []⟩

/-- Concrete sample rank-1 upper tensor over `sampleM7`. -/
def sampleT7 : Tensor K Nat := ⟨sampleM7, [IdxPos.u], [([0], 5), ([1], 11)]⟩

/-- Concrete sample manifold with a zero connection (hand-assembled). -/
def sampleM2 : Manifold K Nat := ⟨matId2, [0, 1], []⟩

/-- Concrete sample engine derivative depending only on the coordinate
symbol. -/
def pdiffSym : Nat → K → K := fun s _ => s

/-- Concrete engine inverse of the sphere metric at `sin θ = 2` in
`ZMod 13`: `diag(1, 10)`, since `10 * (2*2) = 1` in `ZMod 13`. -/
def giSphere : MatS K :=
  ⟨2, 2, fun i j => if i = 0 ∧ j = 0 then 1 else if i = 1 ∧ j = 1 then 10 else 0⟩

/-- Concrete sample engine inverse returning `giSphere`. -/
def eInvSphere : MatS K → Except PyErr (MatS K) := fun _ => .ok giSphere

/-- Concrete engine derivative for the sphere witness.  Coordinates are
`0` (θ) and `1` (φ); with `s = 2` and `c = 7` (so `s² + c² = 1` in
`ZMod 13`), ∂/∂θ maps `s·s = 4 ↦ 2·s·c = 2`, `−(s·c) = 12 ↦ s² − c² = 7`
and `g^{φφ}·s·c = 10 ↦ −g^{φφ} = 3`; every other value, and everything
under ∂/∂φ, maps to zero. -/
def pdiffSphere : Nat → K → K := fun x v =>
  if x = 0 then (if v = 4 then 2 else if v = 12 then 7 else if v = 10 then 3 else 0)
  else 0

/-- Concrete sample: the unit sphere manifold at `sin θ = 2` in `ZMod 13`,
as constructed by `Manifold.make`. -/
def sampleMSphere : Manifold K Nat :=
  ⟨sphereMetric 2, [0, 1],
    okD (christoffel eInvSphere pdiffSphere [0, 1] (sphereMetric 2)) []⟩

/-- Projection used to state facts about fallible constructions without
comparing function-valued fields: the `gammas` of a constructed manifold. -/
def gammasOf : Except PyErr (Manifold R Sym) → Option (Vals R)
  | .ok M => some M.gammas
  | .error _ => none

/-- Projection: the error of a failed computation, if any. -/
def errOf {α : Type} : Except PyErr α → Option PyErr
  | .ok _ => none
  | .error e => some e

/-- Projection: the `values` dict of a constructed tensor. -/
def valsOf : Except PyErr (Tensor R Sym) → Option (Vals R)
  | .ok T => some T.vals
  | .error _ => none

end Core

section DictLemmas

variable {K : Type} [DecidableEq K] {V : Type}

@[simp] theorem lookupA_nil (k : K) : lookupA ([] : List (K × V)) k = none := rfl

theorem lookupA_cons (p : K × V) (rest : List (K × V)) (k : K) :
    lookupA (p :: rest) k = if p.1 = k then some p.2 else lookupA rest k := rfl

theorem lookupA_assignA (l : List (K × V)) (k k' : K) (v : V) :
    lookupA (assignA l k v) k' = if k' = k then some v else lookupA l k' := by
  induction l with
  | nil =>
    show lookupA [(k, v)] k' = _
    unfold lookupA
    by_cases h : k' = k
    · rw [if_pos h.symm, if_pos h]
    · rw [if_neg (fun hc => h hc.symm), if_neg h]
      rfl
  | cons p rest ih =>
    unfold assignA
    by_cases hp : p.1 = k
    · rw [if_pos hp]
      rw [lookupA_cons, lookupA_cons]
      by_cases h : k' = k
      · rw [if_pos h.symm, if_pos h]
      · rw [if_neg (fun hc => h hc.symm), if_neg h,
          if_neg (fun hc : p.1 = k' => h (hc.symm.trans hp))]
    · rw [if_neg hp]
      rw [lookupA_cons, lookupA_cons]
      by_cases hq : p.1 = k'
      · rw [if_pos hq, if_neg (fun hc : k' = k => hp (hq.trans hc)), if_pos hq]
      · rw [if_neg hq, if_neg hq, ih]

theorem lookupA_eraseA (l : List (K × V)) (k k' : K) :
    lookupA (eraseA l k) k' = if k' = k then none else lookupA l k' := by
  induction l with
  | nil =>
    unfold eraseA
    by_cases h : k' = k
    · rw [if_pos h]; rfl
    · rw [if_neg h]
  | cons p rest ih =>
    unfold eraseA
    by_cases hp : p.1 = k
    · rw [if_pos hp, ih]
      by_cases h : k' = k
      · rw [if_pos h, if_pos h]
      · rw [if_neg h, if_neg h, lookupA_cons]
        rw [if_neg (fun hc : p.1 = k' => h (hc.symm.trans hp))]
    · rw [if_neg hp]
      rw [lookupA_cons, lookupA_cons]
      by_cases hq : p.1 = k'
      · rw [if_pos hq, if_neg (fun hc : k' = k => hp (hq.trans hc)), if_pos hq]
      · rw [if_neg hq, if_neg hq, ih]

theorem mem_assignA (l : List (K × V)) (k : K) (v : V) (p : K × V)
    (hp : p ∈ assignA l k v) : p = (k, v) ∨ p ∈ l := by
  induction l with
  | nil =>
    left
    simpa [assignA] using hp
  | cons q rest ih =>
    by_cases hq : q.1 = k
    · rw [assignA, if_pos hq] at hp
      rcases List.mem_cons.mp hp with h | h
      · exact Or.inl h
      · exact Or.inr (List.mem_cons_of_mem _ h)
    · rw [assignA, if_neg hq] at hp
      rcases List.mem_cons.mp hp with h | h
      · exact Or.inr (h ▸ List.mem_cons_self _ _)
      · rcases ih h with h' | h'
        · exact Or.inl h'
        · exact Or.inr (List.mem_cons_of_mem _ h')

theorem mem_eraseA (l : List (K × V)) (k : K) (p : K × V)
    (hp : p ∈ eraseA l k) : p ∈ l := by
  induction l with
  | nil =>
    simpa [eraseA] using hp
  | cons q rest ih =>
    by_cases hq : q.1 = k
    · rw [eraseA, if_pos hq] at hp
      exact List.mem_cons_of_mem _ (ih hp)
    · rw [eraseA, if_neg hq] at hp
      rcases List.mem_cons.mp hp with h | h
      · exact h ▸ List.mem_cons_self _ _
      · exact List.mem_cons_of_mem _ (ih h)

theorem nodupKeys_nil : NodupKeys ([] : List (K × V)) := by simp [NodupKeys]

theorem key_ne_of_mem_eraseA (l : List (K × V)) (k : K) (p : K × V)
    (hp : p ∈ eraseA l k) : p.1 ≠ k := by
  induction l with
  | nil =>
    simp [eraseA] at hp
  | cons q rest ih =>
    by_cases hq : q.1 = k
    · rw [eraseA, if_pos hq] at hp
      exact ih hp
    · rw [eraseA, if_neg hq] at hp
      rcases List.mem_cons.mp hp with h | h
      · rw [h]; exact hq
      · exact ih h

theorem keys_assignA_subset (l : List (K × V)) (k : K) (v : V) (k' : K)
    (h : k' ∈ (assignA l k v).map Prod.fst) : k' = k ∨ k' ∈ l.map Prod.fst := by
  simp only [List.mem_map] at h
  obtain ⟨p, hp, hpk⟩ := h
  rcases mem_assignA l k v p hp with h' | h'
  · left; rw [← hpk, h']
  · right; exact List.mem_map.mpr ⟨p, h', hpk⟩

theorem nodupKeys_assignA (l : List (K × V)) (k : K) (v : V)
    (h : NodupKeys l) : NodupKeys (assignA l k v) := by
  induction l with
  | nil =>
    simp [assignA, NodupKeys]
  | cons p rest ih =>
    rw [NodupKeys, List.map_cons, List.nodup_cons] at h
    by_cases hp : p.1 = k
    · rw [assignA, if_pos hp, NodupKeys, List.map_cons, List.nodup_cons]
      exact ⟨show k ∉ _ from hp ▸ h.1, h.2⟩
    · rw [assignA, if_neg hp, NodupKeys, List.map_cons, List.nodup_cons]
      refine ⟨fun hc => ?_, ih h.2⟩
      rcases keys_assignA_subset rest k v p.1 hc with h' | h'
      · exact hp h'
      · exact h.1 h'

theorem nodupKeys_eraseA (l : List (K × V)) (k : K)
    (h : NodupKeys l) : NodupKeys (eraseA l k) := by
  induction l with
  | nil =>
    simpa [eraseA] using h
  | cons p rest ih =>
    rw [NodupKeys, List.map_cons, List.nodup_cons] at h
    by_cases hp : p.1 = k
    · rw [eraseA, if_pos hp]
      exact ih h.2
    · rw [eraseA, if_neg hp, NodupKeys, List.map_cons, List.nodup_cons]
      refine ⟨fun hc => ?_, ih h.2⟩
      simp only [List.mem_map] at hc
      obtain ⟨q, hq, hqk⟩ := hc
      exact h.1 (List.mem_map.mpr ⟨q, mem_eraseA rest k q hq, hqk⟩)

theorem lookupA_eq_of_mem_nodup (l : List (K × V)) (k : K) (v : V)
    (hmem : (k, v) ∈ l) (hnd : NodupKeys l) : lookupA l k = some v := by
  induction l with
  | nil => simp at hmem
  | cons p rest ih =>
    rw [NodupKeys, List.map_cons, List.nodup_cons] at hnd
    rcases List.mem_cons.mp hmem with h | h
    · rw [lookupA_cons, if_pos (show p.1 = k by rw [← h]), show p.2 = v by rw [← h]]
    · have hk : k ∈ rest.map Prod.fst := List.mem_map.mpr ⟨(k, v), h, rfl⟩
      have hp : p.1 ≠ k := fun hc => hnd.1 (hc ▸ hk)
      rw [lookupA, if_neg hp]
      exact ih h hnd.2

theorem lookupA_eq_none_of_not_mem (l : List (K × V)) (k : K)
    (h : k ∉ l.map Prod.fst) : lookupA l k = none := by
  induction l with
  | nil => rfl
  | cons p rest ih =>
    rw [List.map_cons, List.mem_cons, not_or] at h
    rw [lookupA, if_neg (fun hc => h.1 hc.symm)]
    exact ih h.2

end DictLemmas

section ValuesLemmas

variable {R : Type} [Field R] [DecidableEq R]

@[simp] theorem getv_nil (k : Idx) : getv ([] : Vals R) k = 0 := rfl

theorem getv_setItem (vals : Vals R) (k k' : Idx) (v : R) :
    getv (setItem vals k v) k' = if k' = k then v else getv vals k' := by
  unfold setItem getv
  by_cases hv : v = 0
  · rw [if_pos hv, lookupA_eraseA]
    by_cases h : k' = k
    · rw [if_pos h, if_pos h, hv]; rfl
    · rw [if_neg h, if_neg h, lookupA_assignA, if_neg h]
  · rw [if_neg hv, lookupA_assignA]
    by_cases h : k' = k
    · rw [if_pos h, if_pos h]; rfl
    · rw [if_neg h, if_neg h]

theorem getv_addAt (vals : Vals R) (k k' : Idx) (v : R) :
    getv (addAt vals k v) k' = if k' = k then getv vals k + v else getv vals k' := by
  unfold addAt
  rw [getv_setItem]

theorem getv_subAt (vals : Vals R) (k k' : Idx) (v : R) :
    getv (subAt vals k v) k' = if k' = k then getv vals k - v else getv vals k' := by
  unfold subAt
  rw [getv_setItem]

theorem subAt_eq_addAt (vals : Vals R) (k : Idx) (v : R) :
    subAt vals k v = addAt vals k (-v) := by
  unfold subAt addAt
  rw [sub_eq_add_neg]

theorem zeroFree_setItem (vals : Vals R) (k : Idx) (v : R)
    (h : ZeroFree vals) : ZeroFree (setItem vals k v) := by
  unfold setItem
  by_cases hv : v = 0
  · rw [if_pos hv]
    intro p hp
    have hp' := mem_eraseA _ _ _ hp
    rcases mem_assignA _ _ _ _ hp' with h' | h'
    · exact absurd (show p.1 = k by rw [h']) (key_ne_of_mem_eraseA _ _ _ hp)
    · exact h p h'
  · rw [if_neg hv]
    intro p hp
    rcases mem_assignA _ _ _ _ hp with h' | h'
    · rw [h']; exact hv
    · exact h p h'

theorem nodupKeys_setItem (vals : Vals R) (k : Idx) (v : R)
    (h : NodupKeys vals) : NodupKeys (setItem vals k v) := by
  unfold setItem
  by_cases hv : v = 0
  · rw [if_pos hv]
    exact nodupKeys_eraseA _ _ (nodupKeys_assignA _ _ _ h)
  · rw [if_neg hv]
    exact nodupKeys_assignA _ _ _ h

theorem nodupKeys_addAt (vals : Vals R) (k : Idx) (v : R)
    (h : NodupKeys vals) : NodupKeys (addAt vals k v) :=
  nodupKeys_setItem _ _ _ h

theorem nodupKeys_subAt (vals : Vals R) (k : Idx) (v : R)
    (h : NodupKeys vals) : NodupKeys (subAt vals k v) :=
  nodupKeys_setItem _ _ _ h

end ValuesLemmas

section FoldsLemmas

variable {α β γ : Type}

@[simp] theorem flatL_nil (F : α → List β) : flatL [] F = [] := rfl

@[simp] theorem flatL_cons (a : α) (rest : List α) (F : α → List β) :
    flatL (a :: rest) F = F a ++ flatL rest F := rfl

theorem flatL_append (L₁ L₂ : List α) (F : α → List β) :
    flatL (L₁ ++ L₂) F = flatL L₁ F ++ flatL L₂ F := by
  induction L₁ with
  | nil => simp
  | cons a rest ih => simp [ih]

theorem mem_flatL (L : List α) (F : α → List β) (b : β) :
    b ∈ flatL L F ↔ ∃ a ∈ L, b ∈ F a := by
  induction L with
  | nil => simp
  | cons a rest ih => simp [List.mem_append, ih]

/-- A nested loop is the loop over the flattened iteration sequence. -/
theorem foldl_flatL (L : List α) (F : α → List β) (step : γ → β → γ) (init : γ) :
    L.foldl (fun acc a => (F a).foldl step acc) init = (flatL L F).foldl step init := by
  induction L generalizing init with
  | nil => rfl
  | cons a rest ih => simp [List.foldl_append, ih]

theorem foldl_ext (f g : γ → α → γ) (l : List α) (init : γ)
    (h : ∀ acc, ∀ a ∈ l, f acc a = g acc a) :
    l.foldl f init = l.foldl g init := by
  induction l generalizing init with
  | nil => rfl
  | cons a rest ih =>
    simp only [List.foldl_cons]
    rw [h init a (List.mem_cons_self _ _)]
    exact ih _ fun acc b hb => h acc b (List.mem_cons_of_mem _ hb)

theorem nodup_flatL (L : List α) (F : α → List β)
    (hL : L.Nodup) (hF : ∀ a ∈ L, (F a).Nodup)
    (hdisj : ∀ a₁ ∈ L, ∀ a₂ ∈ L, a₁ ≠ a₂ → ∀ b, b ∈ F a₁ → b ∉ F a₂) :
    (flatL L F).Nodup := by
  induction L with
  | nil => simp
  | cons a rest ih =>
    rw [flatL_cons, List.nodup_append]
    rw [List.nodup_cons] at hL
    refine ⟨hF a (List.mem_cons_self _ _), ?_, ?_⟩
    · exact ih hL.2 (fun x hx => hF x (List.mem_cons_of_mem _ hx))
        (fun x hx y hy hxy => hdisj x (List.mem_cons_of_mem _ hx) y
          (List.mem_cons_of_mem _ hy) hxy)
    · intro b hb hb'
      obtain ⟨a', ha', hba'⟩ := (mem_flatL _ _ _).mp hb'
      exact hdisj a (List.mem_cons_self _ _) a' (List.mem_cons_of_mem _ ha')
        (fun hc => hL.1 (hc ▸ ha')) b hb hba'

end FoldsLemmas

section ValFoldsLemmas

variable {R : Type} [Field R] [DecidableEq R]

@[simp] theorem keySum_nil (k : Idx) : keySum ([] : List (Idx × R)) k = 0 := rfl

theorem keySum_cons (p : Idx × R) (rest : List (Idx × R)) (k : Idx) :
    keySum (p :: rest) k = if p.1 = k then p.2 + keySum rest k else keySum rest k := rfl

theorem keySum_append (L₁ L₂ : List (Idx × R)) (k : Idx) :
    keySum (L₁ ++ L₂) k = keySum L₁ k + keySum L₂ k := by
  induction L₁ with
  | nil => simp
  | cons p rest ih =>
    rw [List.cons_append, keySum_cons, keySum_cons, ih]
    by_cases h : p.1 = k
    · rw [if_pos h, if_pos h, add_assoc]
    · rw [if_neg h, if_neg h]

theorem keySum_single (k₀ : Idx) (v : R) (k : Idx) :
    keySum [(k₀, v)] k = if k₀ = k then v else 0 := by
  rw [keySum_cons]
  by_cases h : k₀ = k
  · rw [if_pos h, if_pos h, keySum_nil, add_zero]
  · rw [if_neg h, if_neg h, keySum_nil]

theorem keySum_zero_of_no_key (L : List (Idx × R)) (k : Idx)
    (h : ∀ p ∈ L, p.1 ≠ k) : keySum L k = 0 := by
  induction L with
  | nil => rfl
  | cons p rest ih =>
    rw [keySum_cons, if_neg (h p (List.mem_cons_self _ _))]
    exact ih fun q hq => h q (List.mem_cons_of_mem _ hq)

/-- Accumulation characterisation: a fold of `+=` steps adds, at every key,
the sum of the contributions to that key. -/
theorem getv_addFold (L : List (Idx × R)) (vs : Vals R) (k : Idx) :
    getv (L.foldl addStep vs) k = getv vs k + keySum L k := by
  induction L generalizing vs with
  | nil => simp
  | cons p rest ih =>
    rw [List.foldl_cons, ih, keySum_cons]
    show getv (addAt vs p.1 p.2) k + _ = _
    rw [getv_addAt]
    by_cases h : k = p.1
    · rw [if_pos h, if_pos h.symm, h, add_assoc]
    · rw [if_neg h, if_neg (fun hc => h hc.symm)]

theorem zeroFree_addFold (L : List (Idx × R)) (vs : Vals R)
    (h : ZeroFree vs) : ZeroFree (L.foldl addStep vs) := by
  induction L generalizing vs with
  | nil => exact h
  | cons p rest ih => exact ih _ (zeroFree_setItem _ _ _ h)

theorem nodupKeys_addFold (L : List (Idx × R)) (vs : Vals R)
    (h : NodupKeys vs) : NodupKeys (L.foldl addStep vs) := by
  induction L generalizing vs with
  | nil => exact h
  | cons p rest ih => exact ih _ (nodupKeys_addAt _ _ _ h)

theorem zeroFree_setFold (L : List (Idx × R)) (vs : Vals R)
    (h : ZeroFree vs) : ZeroFree (L.foldl setStep vs) := by
  induction L generalizing vs with
  | nil => exact h
  | cons p rest ih => exact ih _ (zeroFree_setItem _ _ _ h)

theorem nodupKeys_setFold (L : List (Idx × R)) (vs : Vals R)
    (h : NodupKeys vs) : NodupKeys (L.foldl setStep vs) := by
  induction L generalizing vs with
  | nil => exact h
  | cons p rest ih => exact ih _ (nodupKeys_setItem _ _ _ h)

theorem getv_setFold_not_mem (L : List (Idx × R)) (vs : Vals R) (k : Idx)
    (h : k ∉ L.map Prod.fst) : getv (L.foldl setStep vs) k = getv vs k := by
  induction L generalizing vs with
  | nil => rfl
  | cons p rest ih =>
    rw [List.map_cons, List.mem_cons, not_or] at h
    rw [List.foldl_cons, ih _ h.2]
    show getv (setItem vs p.1 p.2) k = getv vs k
    rw [getv_setItem, if_neg (fun hc : k = p.1 => h.1 hc)]

/-- A fold of plain `=` writes over pairwise-distinct keys stores, at each
written key, the value written there. -/
theorem getv_setFold_mem (L : List (Idx × R)) (vs : Vals R) (k : Idx) (v : R)
    (hnd : NodupKeys L) (hmem : (k, v) ∈ L) : getv (L.foldl setStep vs) k = v := by
  induction L generalizing vs with
  | nil => simp at hmem
  | cons p rest ih =>
    rw [NodupKeys, List.map_cons, List.nodup_cons] at hnd
    rcases List.mem_cons.mp hmem with h | h
    · have hpk : p.1 = k := by rw [← h]
      rw [List.foldl_cons,
        getv_setFold_not_mem _ _ _ (fun hc => hnd.1 (by rw [hpk]; exact hc))]
      show getv (setItem vs p.1 p.2) k = v
      rw [getv_setItem, if_pos hpk.symm, show p.2 = v by rw [← h]]
    · rw [List.foldl_cons]
      exact ih _ hnd.2 h

/-- Folding `a + f i` over `range n`. -/
theorem foldl_add_range (n : Nat) (f : Nat → R) (init : R) :
    (List.range n).foldl (fun a i => a + f i) init = init + ∑ i ∈ Finset.range n, f i := by
  induction n generalizing init with
  | zero => simp
  | succ m ih =>
    rw [List.range_succ, List.foldl_append, ih, Finset.sum_range_succ, List.foldl_cons,
      List.foldl_nil, add_assoc]

/-- Folding `a - f i` over `range n`. -/
theorem foldl_sub_range (n : Nat) (f : Nat → R) (init : R) :
    (List.range n).foldl (fun a i => a - f i) init = init - ∑ i ∈ Finset.range n, f i := by
  induction n generalizing init with
  | zero => simp
  | succ m ih =>
    rw [List.range_succ, List.foldl_append, ih, Finset.sum_range_succ, List.foldl_cons,
      List.foldl_nil, sub_sub]

theorem keySum_flatL_range (n : Nat) (F : Nat → List (Idx × R)) (k : Idx) :
    keySum (flatL (List.range n) F) k = ∑ i ∈ Finset.range n, keySum (F i) k := by
  induction n with
  | zero => simp
  | succ m ih =>
    rw [List.range_succ, flatL_append, keySum_append, ih, Finset.sum_range_succ,
      flatL_cons, flatL_nil, List.append_nil]

end ValFoldsLemmas

section CoreLemmas

variable {R : Type} [Field R] [DecidableEq R]
variable {Sym : Type} [DecidableEq Sym] [Inhabited Sym]

theorem mem_multiIndices (n r : Nat) (m : Idx) :
    m ∈ multiIndices n r ↔ m.length = r ∧ ∀ x ∈ m, x < n := by
  induction r generalizing m with
  | zero =>
    constructor
    · intro h
      rcases List.mem_singleton.mp h with rfl
      exact ⟨rfl, by simp⟩
    · intro ⟨h1, _⟩
      rw [List.length_eq_zero] at h1
      rw [h1]
      exact List.mem_singleton.mpr rfl
  | succ r ih =>
    constructor
    · intro h
      rw [multiIndices, mem_flatL] at h
      obtain ⟨i, hi, hm⟩ := h
      rw [List.mem_map] at hm
      obtain ⟨m', hm', rfl⟩ := hm
      rw [List.mem_range] at hi
      obtain ⟨hlen, hbound⟩ := (ih m').mp hm'
      refine ⟨by simp [hlen], ?_⟩
      intro x hx
      rcases List.mem_cons.mp hx with rfl | hx'
      · exact hi
      · exact hbound x hx'
    · intro ⟨h1, h2⟩
      match m with
      | [] => simp at h1
      | a :: m' =>
        rw [multiIndices, mem_flatL]
        refine ⟨a, List.mem_range.mpr (h2 a (List.mem_cons_self _ _)), ?_⟩
        rw [List.mem_map]
        refine ⟨m', (ih m').mpr ⟨by simpa using h1, ?_⟩, rfl⟩
        intro x hx
        exact h2 x (List.mem_cons_of_mem _ hx)

theorem nodup_multiIndices (n r : Nat) : (multiIndices n r).Nodup := by
  induction r with
  | zero => simp [multiIndices]
  | succ r ih =>
    rw [multiIndices]
    refine nodup_flatL _ _ (List.nodup_range n) (fun i _ => ?_) ?_
    · exact ih.map fun m₁ m₂ h => by injection h
    · intro i₁ _ i₂ _ hne b hb₁ hb₂
      rw [List.mem_map] at hb₁ hb₂
      obtain ⟨m₁, _, rfl⟩ := hb₁
      obtain ⟨m₂, _, h⟩ := hb₂
      injection h with h1 _
      exact hne h1.symm

theorem length_of_mem_multiIndices {n r : Nat} {m : Idx}
    (h : m ∈ multiIndices n r) : m.length = r :=
  ((mem_multiIndices n r m).mp h).1

theorem set_mem_multiIndices {n r : Nat} {m : Idx} (i x : Nat)
    (h : m ∈ multiIndices n r) (hx : x < n) : m.set i x ∈ multiIndices n r := by
  rw [mem_multiIndices] at h ⊢
  refine ⟨by rw [List.length_set, h.1], ?_⟩
  intro y hy
  rcases List.mem_or_eq_of_mem_set hy with h' | rfl
  · exact h.2 y h'
  · exact hx

theorem iterWriteAux_changed (f : Idx → R → R) (l : List (Idx × R)) (vs : Vals R) :
    iterWriteAux f l vs true = .error .runtimeError := by
  cases l <;> rfl

theorem iterWriteAux_ok (f : Idx → R → R) (l : List (Idx × R)) (vs : Vals R)
    (h : ∀ p ∈ l, f p.1 p.2 ≠ 0) :
    iterWriteAux f l vs false =
      .ok (l.foldl (fun a p => setItem a p.1 (f p.1 p.2)) vs) := by
  induction l generalizing vs with
  | nil => rfl
  | cons p rest ih =>
    rw [iterWriteAux, if_neg (by simp)]
    rw [decide_eq_false (h p (List.mem_cons_self _ _))]
    rw [ih _ fun q hq => h q (List.mem_cons_of_mem _ hq), List.foldl_cons]

theorem iterWriteAux_error (f : Idx → R → R) (l : List (Idx × R)) (vs : Vals R)
    (h : ∃ p ∈ l, f p.1 p.2 = 0) :
    iterWriteAux f l vs false = .error .runtimeError := by
  induction l generalizing vs with
  | nil => simp at h
  | cons p rest ih =>
    rw [iterWriteAux, if_neg (by simp)]
    by_cases hp : f p.1 p.2 = 0
    · rw [decide_eq_true hp]
      exact iterWriteAux_changed _ _ _
    · rw [decide_eq_false hp]
      obtain ⟨q, hq, hq0⟩ := h
      rcases List.mem_cons.mp hq with rfl | hq'
      · exact absurd hq0 hp
      · exact ih _ ⟨q, hq', hq0⟩

theorem getv_initFold_not_mem (L : List (Idx × R)) (a : Vals R) (k : Idx)
    (h : k ∉ L.map Prod.fst) :
    getv (L.foldl (fun a p => if p.2 ≠ 0 then assignA a p.1 p.2 else a) a) k = getv a k := by
  induction L generalizing a with
  | nil => rfl
  | cons p rest ih =>
    rw [List.map_cons, List.mem_cons, not_or] at h
    rw [List.foldl_cons, ih _ h.2]
    by_cases hp : p.2 ≠ 0
    · rw [if_pos hp]
      unfold getv
      rw [lookupA_assignA, if_neg (fun hc : k = p.1 => h.1 hc)]
    · rw [if_neg hp]

theorem getv_initFold_mem (L : List (Idx × R)) (k : Idx) (v : R)
    (hnd : NodupKeys L) (hmem : (k, v) ∈ L) (a : Vals R) :
    getv (L.foldl (fun a p => if p.2 ≠ 0 then assignA a p.1 p.2 else a) a) k =
      if v = 0 then getv a k else v := by
  induction L generalizing a with
  | nil => simp at hmem
  | cons p rest ih =>
    rw [NodupKeys, List.map_cons, List.nodup_cons] at hnd
    rcases List.mem_cons.mp hmem with h | h
    · have hpk : p.1 = k := by rw [← h]
      have hpv : p.2 = v := by rw [← h]
      rw [List.foldl_cons, getv_initFold_not_mem _ _ _ (fun hc => hnd.1 (by rw [hpk]; exact hc))]
      by_cases hv : v = 0
      · rw [if_pos hv, if_neg (by rw [hpv, hv]; simp)]
      · rw [if_neg hv, if_pos (by rw [hpv]; exact hv)]
        unfold getv
        rw [lookupA_assignA, if_pos hpk.symm, hpv]
        rfl
    · rw [List.foldl_cons]
      have hk : k ∈ rest.map Prod.fst := List.mem_map.mpr ⟨(k, v), h, rfl⟩
      have hne : ¬ k = p.1 := fun hc => hnd.1 (hc ▸ hk)
      rw [ih hnd.2 h _]
      by_cases hv : v = 0
      · rw [if_pos hv, if_pos hv]
        by_cases hp : p.2 ≠ 0
        · rw [if_pos hp]
          unfold getv
          rw [lookupA_assignA, if_neg hne]
        · rw [if_neg hp]
      · rw [if_neg hv, if_neg hv]

theorem getv_initVals (L : List (Idx × R)) (k : Idx) (hnd : NodupKeys L) :
    getv (initVals L) k = getv L k := by
  by_cases h : k ∈ L.map Prod.fst
  · rw [List.mem_map] at h
    obtain ⟨p, hp, hpk⟩ := h
    have hmem : (k, p.2) ∈ L := by
      have : p = (k, p.2) := by
        apply Prod.ext
        · exact hpk
        · rfl
      exact this ▸ hp
    rw [initVals, getv_initFold_mem L k p.2 hnd hmem]
    rw [show getv L k = p.2 from by unfold getv; rw [lookupA_eq_of_mem_nodup L k p.2 hmem hnd]; rfl]
    by_cases hv : p.2 = 0
    · rw [if_pos hv, hv]; rfl
    · rw [if_neg hv]
  · rw [initVals, getv_initFold_not_mem _ _ _ h, getv_nil]
    unfold getv
    rw [lookupA_eq_none_of_not_mem _ _ h]
    rfl

theorem zeroFree_initVals (L : List (Idx × R)) : ZeroFree (initVals L) := by
  rw [initVals]
  generalize ha : ([] : Vals R) = a
  have hza : ZeroFree a := ha ▸ (fun p hp => by simp at hp)
  clear ha
  induction L generalizing a with
  | nil => exact hza
  | cons p rest ih =>
    rw [List.foldl_cons]
    refine ih _ ?_
    by_cases hp : p.2 ≠ 0
    · rw [if_pos hp]
      intro q hq
      rcases mem_assignA _ _ _ _ hq with h | h
      · rw [h]; exact hp
      · exact hza q h
    · rw [if_neg hp]
      exact hza

theorem nodupKeys_initVals (L : List (Idx × R)) : NodupKeys (initVals L) := by
  rw [initVals]
  generalize ha : ([] : Vals R) = a
  have hna : NodupKeys a := ha ▸ nodupKeys_nil
  clear ha
  induction L generalizing a with
  | nil => exact hna
  | cons p rest ih =>
    rw [List.foldl_cons]
    refine ih _ ?_
    by_cases hp : p.2 ≠ 0
    · rw [if_pos hp]
      exact nodupKeys_assignA _ _ _ hna
    · rw [if_neg hp]
      exact hna

theorem mapE_ok (f : α → Except PyErr β) (g : α → β) (L : List α)
    (h : ∀ a ∈ L, f a = .ok (g a)) : mapE f L = .ok (L.map g) := by
  induction L with
  | nil => rfl
  | cons a rest ih =>
    rw [mapE, h a (List.mem_cons_self _ _), List.map_cons]
    rw [ih fun b hb => h b (List.mem_cons_of_mem _ hb)]
    rfl

theorem mapE_error (f : α → Except PyErr β) (e₀ : PyErr) (L : List α)
    (hAll : ∀ a ∈ L, ∀ e, f a = .error e → e = e₀)
    (h : ∃ a ∈ L, ∃ e, f a = .error e) : mapE f L = .error e₀ := by
  induction L with
  | nil => simp at h
  | cons a rest ih =>
    rw [mapE]
    cases hfa : f a with
    | error e =>
      rw [hAll a (List.mem_cons_self _ _) e hfa]
      rfl
    | ok b =>
      obtain ⟨a', ha', e, he⟩ := h
      rcases List.mem_cons.mp ha' with rfl | ha''
      · rw [hfa] at he; cases he
      · have := ih (fun x hx => hAll x (List.mem_cons_of_mem _ hx)) ⟨a', ha'', e, he⟩
        rw [this]
        rfl

end CoreLemmas

section ExceptLemmas

variable {R : Type} [Field R] [DecidableEq R]
variable {α β : Type}

theorem except_bind_ok (a : α) (f : α → Except PyErr β) :
    (Except.ok a >>= f) = f a := rfl

theorem except_bind_error (e : PyErr) (f : α → Except PyErr β) :
    ((Except.error e : Except PyErr α) >>= f) = Except.error e := rfl

theorem foldlM_ok_of (l : List α) (f : β → α → Except PyErr β) (g : β → α → β)
    (init : β) (h : ∀ b, ∀ a ∈ l, f b a = .ok (g b a)) :
    l.foldlM f init = .ok (l.foldl g init) := by
  induction l generalizing init with
  | nil => rfl
  | cons a rest ih =>
    rw [List.foldlM_cons, h init a (List.mem_cons_self _ _), except_bind_ok,
      List.foldl_cons]
    exact ih _ fun b x hx => h b x (List.mem_cons_of_mem _ hx)

theorem foldlM_isOk_of (l : List α) (f : β → α → Except PyErr β) (init : β)
    (h : ∀ b, ∀ a ∈ l, ∃ b', f b a = .ok b') :
    ∃ b', l.foldlM f init = .ok b' := by
  induction l generalizing init with
  | nil => exact ⟨init, rfl⟩
  | cons a rest ih =>
    obtain ⟨b₁, hb₁⟩ := h init a (List.mem_cons_self _ _)
    rw [List.foldlM_cons, hb₁, except_bind_ok]
    exact ih _ fun b x hx => h b x (List.mem_cons_of_mem _ hx)

theorem foldlM_range_error (n k : Nat) (hk : k < n) (f : β → Nat → Except PyErr β)
    (e : PyErr) (hok : ∀ b i, i < k → ∃ b', f b i = .ok b')
    (herr : ∀ b, f b k = .error e) (init : β) :
    (List.range n).foldlM f init = .error e := by
  induction n generalizing init with
  | zero => exact absurd hk (Nat.not_lt_zero k)
  | succ m ih =>
    rw [List.range_succ, List.foldlM_append]
    rcases Nat.lt_succ_iff_lt_or_eq.mp hk with h' | h'
    · rw [ih h' init, except_bind_error]
    · subst h'
      obtain ⟨b', hb'⟩ := foldlM_isOk_of (List.range k) f init
        (fun b i hi => hok b i (List.mem_range.mp hi))
      rw [hb', except_bind_ok, List.foldlM_cons, herr b', except_bind_error]

theorem foldlM_cons_error (a : α) (rest : List α) (f : β → α → Except PyErr β)
    (e : PyErr) (init : β) (herr : f init a = .error e) :
    (a :: rest).foldlM f init = .error e := by
  rw [List.foldlM_cons, herr, except_bind_error]

end ExceptLemmas

section MapFlat

variable {R : Type} [Field R] [DecidableEq R]
variable {α β γ : Type}

theorem map_flatL (L : List α) (F : α → List β) (f : β → γ) :
    (flatL L F).map f = flatL L (fun a => (F a).map f) := by
  induction L with
  | nil => rfl
  | cons a rest ih => simp [List.map_append, ih]

/-- Keys-nodup for a flat list of blocks whose keys determine the block:
`proj` recovers the block index from any key of the block. -/
theorem nodupKeys_flatL_proj (L : List α) (F : α → List (Idx × R)) (proj : Idx → α)
    (hL : L.Nodup) (hkey : ∀ a ∈ L, ∀ p ∈ F a, proj p.1 = a)
    (hblocks : ∀ a ∈ L, NodupKeys (F a)) : NodupKeys (flatL L F) := by
  rw [NodupKeys, map_flatL]
  refine nodup_flatL _ _ hL (fun a ha => hblocks a ha) ?_
  intro a₁ h₁ a₂ h₂ hne b hb₁ hb₂
  rw [List.mem_map] at hb₁ hb₂
  obtain ⟨p₁, hp₁, hpb₁⟩ := hb₁
  obtain ⟨p₂, hp₂, hpb₂⟩ := hb₂
  apply hne
  rw [← hkey a₁ h₁ p₁ hp₁, ← hkey a₂ h₂ p₂ hp₂, hpb₁, hpb₂]

theorem keySum_flatL (L : List α) (F : α → List (Idx × R)) (k : Idx) :
    keySum (flatL L F) k = (L.map fun a => keySum (F a) k).sum := by
  induction L with
  | nil => rfl
  | cons a rest ih => rw [flatL_cons, keySum_append, List.map_cons, List.sum_cons, ih]

theorem keySum_map_const_key (L : List α) (k : Idx) (t : α → R) :
    keySum (L.map fun a => (k, t a)) k = (L.map t).sum := by
  induction L with
  | nil => rfl
  | cons a rest ih => rw [List.map_cons, keySum_cons, if_pos rfl, List.map_cons,
      List.sum_cons, ih]

theorem sum_map_range (n : Nat) (t : Nat → R) :
    ((List.range n).map t).sum = ∑ i ∈ Finset.range n, t i := by
  induction n with
  | zero => simp
  | succ m ih =>
    rw [List.range_succ, List.map_append, List.sum_append, ih, Finset.sum_range_succ]
    simp

theorem sum_map_single (L : List α) (a₀ : α) (f : α → R) [DecidableEq α]
    (hnd : L.Nodup) (hmem : a₀ ∈ L) :
    (L.map fun a => if a = a₀ then f a else 0).sum = f a₀ := by
  induction L with
  | nil => simp at hmem
  | cons a rest ih =>
    rw [List.nodup_cons] at hnd
    rw [List.map_cons, List.sum_cons]
    rcases List.mem_cons.mp hmem with rfl | h
    · rw [if_pos rfl]
      rw [List.sum_eq_zero, add_zero]
      intro x hx
      rw [List.mem_map] at hx
      obtain ⟨b, hb, rfl⟩ := hx
      rw [if_neg (fun hc : b = a₀ => hnd.1 (hc ▸ hb))]
    · rw [if_neg (fun hc : a = a₀ => hnd.1 (hc ▸ h)), zero_add]
      exact ih hnd.2 h

end MapFlat

section ChristoffelLemmas

variable {R : Type} [Field R] [DecidableEq R]
variable {Sym : Type} [DecidableEq Sym] [Inhabited Sym]

theorem MatS.get_ok (M : MatS R) (i j : Nat) (hi : i < M.rows) (hj : j < M.cols) :
    M.get i j = .ok (M.entry i j) := by
  rw [MatS.get, if_pos ⟨hi, hj⟩]

theorem MatS.get_error (M : MatS R) (i j : Nat) (h : ¬(i < M.rows ∧ j < M.cols)) :
    M.get i j = .error .indexError := by
  rw [MatS.get, if_neg h]

theorem christoffel_ok (eInv : MatS R → Except PyErr (MatS R)) (pdiff : Sym → R → R)
    (coords : List Sym) (g ginv : MatS R) (hE : eInv g = .ok ginv)
    (hgr : coords.length ≤ g.rows) (hgc : coords.length ≤ g.cols)
    (hir : coords.length ≤ ginv.rows) (hic : coords.length ≤ ginv.cols) :
    christoffel eInv pdiff coords g = .ok (christoffelLoop pdiff coords g ginv) := by
  have hfold : ∀ mu alpha beta : Nat, mu < coords.length → alpha < coords.length →
      beta < coords.length →
      (List.range coords.length).foldlM (fun (gamma : R) nu => do
        let gmn ← ginv.get mu nu
        let gan ← g.get alpha nu
        let gnb ← g.get nu beta
        let gab ← g.get alpha beta
        Except.ok (gamma + gmn * (pdiff (coords.getD beta default) gan +
          pdiff (coords.getD alpha default) gnb - pdiff (coords.getD nu default) gab)))
        (0 : R) = .ok (chGammaRaw pdiff coords g ginv mu alpha beta) := by
    intro mu alpha beta hmu halpha hbeta
    unfold chGammaRaw
    apply foldlM_ok_of
    intro gamma nu hnu
    rw [List.mem_range] at hnu
    rw [MatS.get_ok ginv mu nu (lt_of_lt_of_le hmu hir) (lt_of_lt_of_le hnu hic),
      except_bind_ok,
      MatS.get_ok g alpha nu (lt_of_lt_of_le halpha hgr) (lt_of_lt_of_le hnu hgc),
      except_bind_ok,
      MatS.get_ok g nu beta (lt_of_lt_of_le hnu hgr) (lt_of_lt_of_le hbeta hgc),
      except_bind_ok,
      MatS.get_ok g alpha beta (lt_of_lt_of_le halpha hgr) (lt_of_lt_of_le hbeta hgc),
      except_bind_ok]
  simp only [christoffel, christoffelLoop]
  rw [hE, except_bind_ok]
  apply foldlM_ok_of
  intro vals1 mu hmu
  rw [List.mem_range] at hmu
  apply foldlM_ok_of
  intro vals2 alpha halpha
  rw [List.mem_range] at halpha
  apply foldlM_ok_of
  intro vals3 beta hbeta
  rw [List.mem_range] at hbeta
  rw [hfold mu alpha beta hmu halpha hbeta, except_bind_ok]

theorem christoffelLoop_eq_setFold (pdiff : Sym → R → R) (coords : List Sym)
    (g ginv : MatS R) :
    christoffelLoop pdiff coords g ginv = (chFlat pdiff coords g ginv).foldl setStep [] := by
  simp only [christoffelLoop, chFlat]
  rw [← foldl_flatL]
  apply foldl_ext
  intro acc1 mu _
  rw [← foldl_flatL]
  apply foldl_ext
  intro acc2 alpha _
  rw [← foldl_flatL]
  apply foldl_ext
  intro acc3 beta _
  rw [chBlock]
  by_cases h : chGammaRaw pdiff coords g ginv mu alpha beta ≠ 0
  · rw [if_pos h, if_pos h, List.foldl_cons, List.foldl_nil]
    rfl
  · rw [if_neg h, if_neg h, List.foldl_nil]

theorem mem_chFlat (pdiff : Sym → R → R) (coords : List Sym) (g ginv : MatS R)
    (p : Idx × R) :
    p ∈ chFlat pdiff coords g ginv ↔
      ∃ mu < coords.length, ∃ alpha < coords.length, ∃ beta < coords.length,
        chGammaRaw pdiff coords g ginv mu alpha beta ≠ 0 ∧
        p = ([mu, alpha, beta], chGammaRaw pdiff coords g ginv mu alpha beta / 2) := by
  rw [chFlat]
  constructor
  · intro hp
    obtain ⟨mu, hmu, hp⟩ := (mem_flatL _ _ _).mp hp
    obtain ⟨alpha, halpha, hp⟩ := (mem_flatL _ _ _).mp hp
    obtain ⟨beta, hbeta, hp⟩ := (mem_flatL _ _ _).mp hp
    rw [chBlock] at hp
    by_cases h : chGammaRaw pdiff coords g ginv mu alpha beta ≠ 0
    · rw [if_pos h] at hp
      exact ⟨mu, List.mem_range.mp hmu, alpha, List.mem_range.mp halpha,
        beta, List.mem_range.mp hbeta, h, List.mem_singleton.mp hp⟩
    · rw [if_neg h] at hp
      simp at hp
  · intro ⟨mu, hmu, alpha, halpha, beta, hbeta, h, hp⟩
    rw [mem_flatL]
    refine ⟨mu, List.mem_range.mpr hmu, ?_⟩
    rw [mem_flatL]
    refine ⟨alpha, List.mem_range.mpr halpha, ?_⟩
    rw [mem_flatL]
    refine ⟨beta, List.mem_range.mpr hbeta, ?_⟩
    rw [chBlock, if_pos h, hp]
    exact List.mem_singleton.mpr rfl

theorem nodupKeys_chFlat (pdiff : Sym → R → R) (coords : List Sym) (g ginv : MatS R) :
    NodupKeys (chFlat pdiff coords g ginv) := by
  rw [chFlat]
  refine nodupKeys_flatL_proj _ _ (fun k => k.getD 0 0) (List.nodup_range _) ?_ ?_
  · intro mu _ p hp
    obtain ⟨alpha, _, hp⟩ := (mem_flatL _ _ _).mp hp
    obtain ⟨beta, _, hp⟩ := (mem_flatL _ _ _).mp hp
    rw [chBlock] at hp
    split at hp
    · rw [List.mem_singleton.mp hp]
      rfl
    · simp at hp
  · intro mu _
    refine nodupKeys_flatL_proj _ _ (fun k => k.getD 1 0) (List.nodup_range _) ?_ ?_
    · intro alpha _ p hp
      obtain ⟨beta, _, hp⟩ := (mem_flatL _ _ _).mp hp
      rw [chBlock] at hp
      split at hp
      · rw [List.mem_singleton.mp hp]
        rfl
      · simp at hp
    · intro alpha _
      refine nodupKeys_flatL_proj _ _ (fun k => k.getD 2 0) (List.nodup_range _) ?_ ?_
      · intro beta _ p hp
        rw [chBlock] at hp
        split at hp
        · rw [List.mem_singleton.mp hp]
          rfl
        · simp at hp
      · intro beta _
        rw [chBlock]
        split
        · rw [NodupKeys]
          simp
        · exact nodupKeys_nil

/-- The stored-or-zero Christoffel entry equals half the raw `gamma`
accumulation (also when that accumulation is zero and nothing is stored). -/
theorem getv_christoffelLoop (pdiff : Sym → R → R) (coords : List Sym) (g ginv : MatS R)
    (mu alpha beta : Nat) (hmu : mu < coords.length) (halpha : alpha < coords.length)
    (hbeta : beta < coords.length) :
    getv (christoffelLoop pdiff coords g ginv) [mu, alpha, beta] =
      chGammaRaw pdiff coords g ginv mu alpha beta / 2 := by
  rw [christoffelLoop_eq_setFold]
  by_cases h : chGammaRaw pdiff coords g ginv mu alpha beta ≠ 0
  · exact getv_setFold_mem _ _ _ _ (nodupKeys_chFlat _ _ _ _)
      ((mem_chFlat _ _ _ _ _).mpr ⟨mu, hmu, alpha, halpha, beta, hbeta, h, rfl⟩)
  · rw [not_not] at h
    rw [getv_setFold_not_mem, getv_nil, h, zero_div]
    intro hc
    rw [List.mem_map] at hc
    obtain ⟨p, hp, hpk⟩ := hc
    obtain ⟨mu', _, alpha', _, beta', _, hne, hp'⟩ := (mem_chFlat _ _ _ _ _).mp hp
    rw [hp'] at hpk
    simp only at hpk
    injection hpk with h1 hpk
    injection hpk with h2 hpk
    injection hpk with h3 _
    rw [h1, h2, h3] at hne
    exact hne h

/-- The raw `gamma` accumulation as a finite sum. -/
theorem chGammaRaw_eq_sum (pdiff : Sym → R → R) (coords : List Sym) (g ginv : MatS R)
    (mu alpha beta : Nat) :
    chGammaRaw pdiff coords g ginv mu alpha beta =
      ∑ nu ∈ Finset.range coords.length,
        ginv.entry mu nu * (pdiff (coords.getD beta default) (g.entry alpha nu) +
          pdiff (coords.getD alpha default) (g.entry nu beta) -
          pdiff (coords.getD nu default) (g.entry alpha beta)) := by
  rw [chGammaRaw, foldl_add_range, zero_add]

end ChristoffelLemmas

section MakeLemmas

variable {R : Type} [Field R] [DecidableEq R]
variable {Sym : Type} [DecidableEq Sym] [Inhabited Sym]

theorem make_ok (eInv : MatS R → Except PyErr (MatS R)) (pdiff : Sym → R → R)
    (coords : List Sym) (g ginv : MatS R) (hE : eInv g = .ok ginv)
    (hgr : coords.length ≤ g.rows) (hgc : coords.length ≤ g.cols)
    (hir : coords.length ≤ ginv.rows) (hic : coords.length ≤ ginv.cols) :
    Manifold.make eInv pdiff g coords =
      .ok ⟨g, coords, christoffelLoop pdiff coords g ginv⟩ := by
  simp only [Manifold.make]
  rw [christoffel_ok eInv pdiff coords g ginv hE hgr hgc hir hic, except_bind_ok]

end MakeLemmas

section Claim1

variable {R : Type} [Field R] [DecidableEq R]
variable {Sym : Type} [DecidableEq Sym] [Inhabited Sym]

/-- C1: For every `Manifold` constructed from a metric `g` and coordinates
of length `n`, and every `(mu, alpha, beta)` in `[0,n)³`, the Christoffel
entry `gammas[(mu, alpha, beta)]` (zero for an absent key) equals
`(1/2) Σ_nu g^{mu nu} (∂g_{alpha nu}/∂x^beta + ∂g_{nu beta}/∂x^alpha −
∂g_{alpha beta}/∂x^nu)`, where `g^{mu nu}` is the matrix inverse of the
metric produced by the engine, and the connection is computed during
`Manifold` construction. -/
theorem C1_christoffel_formula (eInv : MatS R → Except PyErr (MatS R))
    (pdiff : Sym → R → R) (coords : List Sym) (g ginv : MatS R) (M : Manifold R Sym)
    (hE : eInv g = .ok ginv)
    (hgr : g.rows = coords.length) (hgc : g.cols = coords.length)
    (hir : ginv.rows = coords.length) (hic : ginv.cols = coords.length)
    (mu alpha beta : Nat) (hmu : mu < coords.length) (halpha : alpha < coords.length)
    (hbeta : beta < coords.length)
    (hM : Manifold.make eInv pdiff g coords = .ok M) :
    getv M.gammas [mu, alpha, beta] =
      (1 / 2) * ∑ nu ∈ Finset.range coords.length,
        ginv.entry mu nu * (pdiff (coords.getD beta default) (g.entry alpha nu) +
          pdiff (coords.getD alpha default) (g.entry nu beta) -
          pdiff (coords.getD nu default) (g.entry alpha beta)) := by
  rw [make_ok eInv pdiff coords g ginv hE hgr.ge hgc.ge hir.ge hic.ge] at hM
  have hMeq : M = ⟨g, coords, christoffelLoop pdiff coords g ginv⟩ :=
    (Except.ok.inj hM).symm
  rw [hMeq]
  show getv (christoffelLoop pdiff coords g ginv) [mu, alpha, beta] = _
  rw [getv_christoffelLoop pdiff coords g ginv mu alpha beta hmu halpha hbeta,
    chGammaRaw_eq_sum]
  ring

/-- Witness for C1 at the Euclidean plane in Cartesian coordinates. -/
theorem C1_christoffel_formula_witness :
    getv sampleM1.gammas [0, 0, 1] =
      (1 / 2) * ∑ nu ∈ Finset.range (([0, 1] : List Nat).length),
        matId2.entry 0 nu * (pdiffZero (([0, 1] : List Nat).getD 1 default) (matId2.entry 0 nu) +
          pdiffZero (([0, 1] : List Nat).getD 0 default) (matId2.entry nu 1) -
          pdiffZero (([0, 1] : List Nat).getD nu default) (matId2.entry 0 1)) :=
  C1_christoffel_formula eInvId2 pdiffZero [0, 1] matId2 matId2 sampleM1 rfl rfl rfl
    rfl rfl 0 0 1 (by decide) (by decide) (by decide) rfl

end Claim1

section Claim2

/-- C2 counterexample: the claim quantifies over every `IndexedObject`
constructor in the repository, but the `IndexedObject.__init__` of the
legacy duplicate module `diffgeom/diffgeom.py` copies the initial values
mapping without the zero filter, so constructing it from `{(0,): 0}`
stores an entry whose value is zero. -/
theorem C2_zero_free_counterexample :
    ¬ ZeroFree (initValsLegacy [(([0] : Idx), (0 : K))]) := by
  decide

/-- C2 amended: for the `IndexedObject` of `diffgeom/indexed.py` (the class
the package exports) the canonical-sparse invariant does hold: `__setitem__`
preserves zero-freeness (writing zero deletes), and `__init__` never stores
a zero-valued entry. -/
theorem C2_zero_free_invariant {R : Type} [Field R] [DecidableEq R] :
    (∀ (vals : Vals R) (k : Idx) (v : R), ZeroFree vals → ZeroFree (setItem vals k v)) ∧
    (∀ values : Vals R, ZeroFree (initVals values)) :=
  ⟨fun vals k v h => zeroFree_setItem vals k v h, fun values => zeroFree_initVals values⟩

/-- Witness for C2 at concrete inputs. -/
theorem C2_zero_free_invariant_witness :
    ZeroFree (setItem [(([0] : Idx), (1 : K))] [1] 0) ∧
    ZeroFree (initVals [(([1] : Idx), (0 : K))]) :=
  ⟨(C2_zero_free_invariant (R := K)).1 [([0], 1)] [1] 0 (by decide),
   (C2_zero_free_invariant (R := K)).2 [([1], 0)]⟩

end Claim2

section Claim5

variable {R : Type} [Field R] [DecidableEq R]
variable {Sym : Type} [DecidableEq Sym] [Inhabited Sym]

theorem except_map_error {α β : Type} (e : PyErr) (f : α → β) :
    (Except.error e : Except PyErr α).map f = .error e := rfl

theorem except_map_ok {α β : Type} (a : α) (f : α → β) :
    (Except.ok a : Except PyErr α).map f = .ok (f a) := rfl

/-- C5 counterexample: `__getitem__` with the integer slot `5` on an object
over a 2-coordinate system does not raise a lookup error — the integer is
passed through with no range check and the lookup misses, returning zero. -/
theorem C5_get_counterexample :
    getItemE [((10 : Nat), 0)] [(([0] : Idx), (7 : K))] [Slot.num 5] = .ok 0 := rfl

/-- C5 amended: `get` translates each slot and returns the stored value or
zero; it never fails when every name slot is a known coordinate — integer
slots are passed through unchecked, so even out-of-range integers succeed
(returning zero), contrary to the claim; a name not among the coordinates
fails with `KeyError`. -/
theorem C5_get_semantics :
    (∀ (nm : List (Sym × Nat)) (vals : Vals R) (slots : List (Slot Sym)),
      (∀ s ∈ slots, ∀ sym, s = Slot.name sym → (lookupA nm sym).isSome) →
      getItemE nm vals slots = .ok (getv vals (slots.map (slotFn nm)))) ∧
    (∀ (nm : List (Sym × Nat)) (vals : Vals R) (slots : List (Slot Sym)) (sym : Sym),
      Slot.name sym ∈ slots → lookupA nm sym = none →
      getItemE nm vals slots = .error .keyError) := by
  constructor
  · intro nm vals slots h
    rw [getItemE, translateMulti, mapE_ok (translateSlot nm) (slotFn nm) slots, except_map_ok]
    intro s hs
    match s with
    | Slot.num i => rfl
    | Slot.name sym =>
      have hsome := h _ hs sym rfl
      match hlk : lookupA nm sym with
      | some k =>
        rw [translateSlot, hlk, slotFn, hlk]
        rfl
      | none => rw [hlk] at hsome; cases hsome
  · intro nm vals slots sym hmem hnone
    rw [getItemE, translateMulti, mapE_error (translateSlot nm) .keyError slots, except_map_error]
    · intro s hs e he
      match s with
      | Slot.num i => cases he
      | Slot.name sym' =>
        rw [translateSlot] at he
        match hlk : lookupA nm sym' with
        | some k => rw [hlk] at he; cases he
        | none => rw [hlk] at he; exact (Except.error.inj he).symm
    · refine ⟨Slot.name sym, hmem, .keyError, ?_⟩
      rw [translateSlot, hnone]

/-- Witness for C5 at concrete inputs. -/
theorem C5_get_semantics_witness :
    getItemE [((10 : Nat), 0)] [(([0] : Idx), (7 : K))] [Slot.num 0] =
      .ok (getv [(([0] : Idx), (7 : K))] ([Slot.num 0].map (slotFn [((10 : Nat), 0)]))) ∧
    getItemE [((10 : Nat), 0)] [(([0] : Idx), (7 : K))] [Slot.name 99] =
      .error .keyError :=
  ⟨(@C5_get_semantics K _ _ Nat _ _).1 _ _ _
      (fun s hs sym hEq => by
        rw [List.mem_singleton.mp hs] at hEq
        cases hEq),
   (@C5_get_semantics K _ _ Nat _ _).2 _ _ _ 99
      (List.mem_singleton.mpr rfl) rfl⟩

end Claim5

section Claim6

variable {R : Type} [Field R] [DecidableEq R]
variable {Sym : Type} [DecidableEq Sym] [Inhabited Sym]

theorem getv_setFold_self (L : Vals R) (hnd : NodupKeys L) (k : Idx) :
    getv (L.foldl setStep []) k = getv L k := by
  by_cases h : k ∈ L.map Prod.fst
  · rw [List.mem_map] at h
    obtain ⟨p, hp, hpk⟩ := h
    have hmem : (k, p.2) ∈ L := by
      have : p = (k, p.2) := Prod.ext hpk rfl
      exact this ▸ hp
    rw [getv_setFold_mem L [] k p.2 hnd hmem]
    unfold getv
    rw [lookupA_eq_of_mem_nodup L k p.2 hmem hnd]
    rfl
  · rw [getv_setFold_not_mem L [] k h, getv_nil]
    unfold getv
    rw [lookupA_eq_none_of_not_mem L k h]
    rfl

theorem keySum_eq_getv (L : Vals R) (hnd : NodupKeys L) (k : Idx) :
    keySum L k = getv L k := by
  induction L with
  | nil => rfl
  | cons p rest ih =>
    rw [NodupKeys, List.map_cons, List.nodup_cons] at hnd
    rw [keySum_cons]
    by_cases h : p.1 = k
    · rw [if_pos h]
      rw [keySum_zero_of_no_key rest k
        (fun q hq hc => hnd.1 (h ▸ hc ▸ List.mem_map.mpr ⟨q, hq, rfl⟩)), add_zero]
      unfold getv
      rw [lookupA_cons, if_pos h]
      rfl
    · rw [if_neg h, ih hnd.2]
      unfold getv
      rw [lookupA_cons, if_neg h]

theorem getv_subFold (L : List (Idx × R)) (vs : Vals R) (k : Idx) :
    getv (L.foldl subStep vs) k = getv vs k - keySum L k := by
  induction L generalizing vs with
  | nil => simp
  | cons p rest ih =>
    rw [List.foldl_cons, ih, keySum_cons]
    show getv (subAt vs p.1 p.2) k - _ = _
    rw [getv_subAt]
    by_cases h : k = p.1
    · rw [if_pos h, if_pos h.symm, h, sub_sub]
    · rw [if_neg h, if_neg (fun hc => h hc.symm)]

theorem zeroFree_subFold (L : List (Idx × R)) (vs : Vals R)
    (h : ZeroFree vs) : ZeroFree (L.foldl subStep vs) := by
  induction L generalizing vs with
  | nil => exact h
  | cons p rest ih => exact ih _ (zeroFree_setItem _ _ _ h)

/-- C6: `A + B` and `A - B` raise the incompatible-signature error exactly
when the `idx_pos` signatures differ, and otherwise return the per-key
sum/difference with zero entries dropped.  Compatibility is decided by the
signatures alone: `A` and `B` may be bound to different manifolds. -/
theorem C6_add_sub (A B : Tensor R Sym) (hA : NodupKeys A.vals) (hB : NodupKeys B.vals) :
    (A.idxPos ≠ B.idxPos →
      Tensor.add A B = .error .incompatiblePosition ∧
      Tensor.sub A B = .error .incompatiblePosition) ∧
    (A.idxPos = B.idxPos → ∃ S D : Tensor R Sym,
      Tensor.add A B = .ok S ∧ Tensor.sub A B = .ok D ∧
      S.idxPos = A.idxPos ∧ D.idxPos = A.idxPos ∧ S.man = A.man ∧ D.man = A.man ∧
      (∀ k, getv S.vals k = getv A.vals k + getv B.vals k) ∧
      (∀ k, getv D.vals k = getv A.vals k - getv B.vals k) ∧
      ZeroFree S.vals ∧ ZeroFree D.vals) := by
  constructor
  · intro hne
    rw [Tensor.add, Tensor.sub, if_pos hne, if_pos hne]
    exact ⟨rfl, rfl⟩
  · intro heq
    refine ⟨⟨A.man, A.idxPos, B.vals.foldl addStep (A.vals.foldl setStep [])⟩,
      ⟨A.man, A.idxPos, B.vals.foldl subStep (A.vals.foldl setStep [])⟩, ?_, ?_, rfl, rfl,
      rfl, rfl, ?_, ?_, ?_, ?_⟩
    · rw [Tensor.add, if_neg (not_not_intro heq)]
    · rw [Tensor.sub, if_neg (not_not_intro heq)]
    · intro k
      show getv (B.vals.foldl addStep (A.vals.foldl setStep [])) k = _
      rw [getv_addFold, getv_setFold_self A.vals hA, keySum_eq_getv B.vals hB]
    · intro k
      show getv (B.vals.foldl subStep (A.vals.foldl setStep [])) k = _
      rw [getv_subFold, getv_setFold_self A.vals hA, keySum_eq_getv B.vals hB]
    · exact zeroFree_addFold _ _ (zeroFree_setFold _ _ (fun p hp => by simp at hp))
    · exact zeroFree_subFold _ _ (zeroFree_setFold _ _ (fun p hp => by simp at hp))

/-- Witness for C6 at concrete tensors over two different manifolds. -/
theorem C6_add_sub_witness :
    (Tensor.add sampleT0 ⟨sampleM2, [IdxPos.l], []⟩ = .error .incompatiblePosition ∧
      Tensor.sub sampleT0 ⟨sampleM2, [IdxPos.l], []⟩ = .error .incompatiblePosition) ∧
    ∃ S D : Tensor K Nat,
      Tensor.add sampleT0 ⟨sampleM2, [IdxPos.u], [([1], 2)]⟩ = .ok S ∧
      Tensor.sub sampleT0 ⟨sampleM2, [IdxPos.u], [([1], 2)]⟩ = .ok D ∧
      S.idxPos = sampleT0.idxPos ∧ D.idxPos = sampleT0.idxPos ∧
      S.man = sampleT0.man ∧ D.man = sampleT0.man ∧
      (∀ k, getv S.vals k = getv sampleT0.vals k +
        getv ((⟨sampleM2, [IdxPos.u], [([1], 2)]⟩ : Tensor K Nat)).vals k) ∧
      (∀ k, getv D.vals k = getv sampleT0.vals k -
        getv ((⟨sampleM2, [IdxPos.u], [([1], 2)]⟩ : Tensor K Nat)).vals k) ∧
      ZeroFree S.vals ∧ ZeroFree D.vals :=
  ⟨(C6_add_sub sampleT0 ⟨sampleM2, [IdxPos.l], []⟩ (by decide) (by decide)).1 (by decide),
   (C6_add_sub sampleT0 ⟨sampleM2, [IdxPos.u], [([1], 2)]⟩ (by decide) (by decide)).2 rfl⟩

end Claim6

section Claim8

variable {R : Type} [Field R] [DecidableEq R]
variable {Sym : Type} [DecidableEq Sym] [Inhabited Sym]

/-- C8 counterexample: multiplying a tensor that has a stored entry by the
scalar zero does not return a tensor at all — the in-place write of the
zero product deletes the entry while its dict is being iterated, and the
loop raises `RuntimeError`. -/
theorem C8_scalar_mul_counterexample :
    errOf (Tensor.rmul (0 : K) sampleT0) = some PyErr.runtimeError ∧
    errOf (Tensor.mulScalar sampleT0 (0 : K)) = some PyErr.runtimeError := by
  exact ⟨by decide, by decide⟩

/-- C8 amended: for every scalar `c` such that no stored value multiplied
by `c` is zero (in particular any nonzero `c`, since stored values are
nonzero), `c * T` and `T * c` both return a tensor with `T`'s signature and
manifold whose value at every index tuple is `c` times `T`'s value, and the
two orders return the same result; if some product is zero (e.g. `c = 0`
and `T` is nonempty), both orders instead raise `RuntimeError`. -/
theorem C8_scalar_mul (A : Tensor R Sym) (c : R) (hnd : NodupKeys A.vals)
    (h : ∀ p ∈ A.vals, p.2 * c ≠ 0) :
    ∃ P Q : Tensor R Sym, Tensor.rmul c A = .ok P ∧ Tensor.mulScalar A c = .ok Q ∧
      P = Q ∧ P.idxPos = A.idxPos ∧ P.man = A.man ∧
      (∀ k, getv P.vals k = c * getv A.vals k) ∧ ZeroFree P.vals := by
  have hrun := iterWriteAux_ok (fun _ v => v * c) A.vals A.vals h
  refine ⟨⟨A.man, A.idxPos,
      A.vals.foldl (fun a p => setItem a p.1 (p.2 * c)) A.vals⟩, _,
    ?_, ?_, rfl, rfl, rfl, ?_, ?_⟩
  · rw [Tensor.rmul, hrun, except_map_ok]
  · rw [Tensor.mulScalar, hrun, except_map_ok]
  · intro k
    show getv (A.vals.foldl (fun a p => setItem a p.1 (p.2 * c)) A.vals) k = _
    rw [show A.vals.foldl (fun a p => setItem a p.1 (p.2 * c)) A.vals =
        (A.vals.map (fun p => (p.1, p.2 * c))).foldl setStep A.vals from
      (List.foldl_map (fun p : Idx × R => (p.1, p.2 * c)) setStep A.vals A.vals).symm]
    by_cases hk : k ∈ A.vals.map Prod.fst
    · rw [List.mem_map] at hk
      obtain ⟨p, hp, hpk⟩ := hk
      have hmem : (k, p.2) ∈ A.vals := (Prod.ext hpk rfl : p = (k, p.2)) ▸ hp
      have hmem' : (k, p.2 * c) ∈ A.vals.map (fun p => (p.1, p.2 * c)) :=
        List.mem_map.mpr ⟨(k, p.2), hmem, rfl⟩
      have hnd' : NodupKeys (A.vals.map (fun p => (p.1, p.2 * c))) := by
        rw [NodupKeys, List.map_map]
        exact hnd
      rw [getv_setFold_mem _ _ _ _ hnd' hmem']
      unfold getv
      rw [lookupA_eq_of_mem_nodup A.vals k p.2 hmem hnd]
      show p.2 * c = c * p.2
      rw [mul_comm]
    · have hk' : k ∉ (A.vals.map (fun p => (p.1, p.2 * c))).map Prod.fst := by
        rw [List.map_map]
        exact hk
      rw [getv_setFold_not_mem _ _ _ hk']
      unfold getv
      rw [lookupA_eq_none_of_not_mem A.vals k hk]
      show (0 : R) = c * 0
      rw [mul_zero]
  · have hstart : ZeroFree A.vals := fun p hp hp0 => h p hp (by rw [hp0, zero_mul])
    show ZeroFree (A.vals.foldl (fun a p => setItem a p.1 (p.2 * c)) A.vals)
    rw [show A.vals.foldl (fun a p => setItem a p.1 (p.2 * c)) A.vals =
        (A.vals.map (fun p => (p.1, p.2 * c))).foldl setStep A.vals from
      (List.foldl_map (fun p : Idx × R => (p.1, p.2 * c)) setStep A.vals A.vals).symm]
    exact zeroFree_setFold _ _ hstart

/-- Witness for C8 at a concrete tensor and scalar. -/
theorem C8_scalar_mul_witness :
    ∃ P Q : Tensor K Nat,
      Tensor.rmul (3 : K) sampleT0 = .ok P ∧
      Tensor.mulScalar sampleT0 (3 : K) = .ok Q ∧
      P = Q ∧ P.idxPos = sampleT0.idxPos ∧ P.man = sampleT0.man ∧
      (∀ k, getv P.vals k = 3 * getv sampleT0.vals k) ∧ ZeroFree P.vals :=
  C8_scalar_mul sampleT0 3 (by decide) (by decide)

end Claim8

section Claim10

variable {R : Type} [Field R] [DecidableEq R]
variable {Sym : Type} [DecidableEq Sym] [Inhabited Sym]

/-- C10: writing a zero back through `__setitem__` while iterating the same
dict crashes: `0 * T` and `T * 0` raise `RuntimeError` for every tensor
with at least one stored entry (the zero product deletes the entry during
iteration) instead of returning an empty tensor; and `simplify()` — called
at the end of `RiemannTensor.__init__` — fails the same way whenever some
stored entry simplifies to zero. -/
theorem C10_zero_write_crash :
    (∀ A : Tensor R Sym, A.vals ≠ [] →
      Tensor.rmul (0 : R) A = .error .runtimeError ∧
      Tensor.mulScalar A (0 : R) = .error .runtimeError) ∧
    (∀ (simpf : R → R) (vals : Vals R), (∃ p ∈ vals, simpf p.2 = 0) →
      simplifyVals simpf vals = .error .runtimeError) ∧
    (∀ (M : Manifold R Sym) (pdiff : Sym → R → R) (simpf : R → R),
      (∃ p ∈ riemannAssemble M pdiff, simpf p.2 = 0) →
      RiemannTensor.build M pdiff simpf = .error .runtimeError) := by
  have hcrash : ∀ A : Tensor R Sym, A.vals ≠ [] →
      iterWriteAux (fun _ v => v * (0 : R)) A.vals A.vals false = .error .runtimeError := by
    intro A hne
    match hv : A.vals with
    | [] => exact absurd hv hne
    | p :: rest =>
      exact iterWriteAux_error _ _ _ ⟨p, List.mem_cons_self _ _, mul_zero p.2⟩
  refine ⟨?_, ?_, ?_⟩
  · intro A hne
    constructor
    · rw [Tensor.rmul, hcrash A hne, except_map_error]
    · rw [Tensor.mulScalar, hcrash A hne, except_map_error]
  · intro simpf vals h
    exact iterWriteAux_error _ _ _ h
  · intro M pdiff simpf h
    rw [RiemannTensor.build, simplifyVals, iterWriteAux_error _ _ _ h, except_map_error]

set_option maxRecDepth 100000 in
/-- Witness for C10 at concrete inputs. -/
theorem C10_zero_write_crash_witness :
    (Tensor.rmul (0 : K) sampleT0 = .error .runtimeError ∧
      Tensor.mulScalar sampleT0 (0 : K) = .error .runtimeError) ∧
    simplifyVals (fun _ => (0 : K)) [(([0] : Idx), (1 : K))] = .error .runtimeError ∧
    RiemannTensor.build sampleM2 pdiffSym (fun _ => (0 : K)) = .error .runtimeError :=
  ⟨(@C10_zero_write_crash K _ _ Nat _ _).1 sampleT0 (by decide),
   (@C10_zero_write_crash K _ _ Nat _ _).2.1 _ _
     ⟨([0], 1), List.mem_singleton.mpr rfl, rfl⟩,
   (@C10_zero_write_crash K _ _ Nat _ _).2.2 sampleM2 pdiffSym _ (by decide)⟩

end Claim10

section Claim4

variable {R : Type} [Field R] [DecidableEq R]
variable {Sym : Type} [DecidableEq Sym] [Inhabited Sym]

theorem dropLast_append_single {α : Type} (l : List α) (b : α) :
    (l ++ [b]).dropLast = l := by
  simp

theorem append_single_inj {α : Type} (l₁ l₂ : List α) (b₁ b₂ : α)
    (h : l₁ ++ [b₁] = l₂ ++ [b₂]) (hlen : l₁.length = l₂.length) : l₁ = l₂ ∧ b₁ = b₂ := by
  have h₁ := congrArg List.dropLast h
  rw [dropLast_append_single, dropLast_append_single] at h₁
  refine ⟨h₁, ?_⟩
  rw [h₁] at h
  have := List.append_cancel_left h
  injection this

/-- The write sequence of `Tensor.diff` flattened. -/
theorem diff_vals_eq_setFold (T : Tensor R Sym) (pdiff : Sym → R → R) :
    (T.diff pdiff).vals =
      (flatL (multiIndices T.dims T.rank) (fun m =>
        (List.range T.dims).map (fun sigma =>
          (m ++ [sigma], diffValue T pdiff m sigma)))).foldl setStep [] := by
  show (multiIndices T.dims T.rank).foldl (fun vs m =>
      (List.range T.dims).foldl (fun vs sigma =>
        setItem vs (m ++ [sigma]) (diffValue T pdiff m sigma)) vs) [] = _
  rw [← foldl_flatL]
  apply foldl_ext
  intro acc m _
  rw [List.foldl_map]
  rfl

theorem nodupKeys_diff_flat (T : Tensor R Sym) (pdiff : Sym → R → R) :
    NodupKeys (flatL (multiIndices T.dims T.rank) (fun m =>
      (List.range T.dims).map (fun sigma =>
        (m ++ [sigma], diffValue T pdiff m sigma)))) := by
  refine nodupKeys_flatL_proj _ _ (fun k => k.dropLast) (nodup_multiIndices _ _) ?_ ?_
  · intro m _ p hp
    rw [List.mem_map] at hp
    obtain ⟨sigma, _, rfl⟩ := hp
    exact dropLast_append_single m sigma
  · intro m _
    rw [NodupKeys, List.map_map]
    refine List.Nodup.map ?_ (List.nodup_range _)
    intro s₁ s₂ h
    simp only [Function.comp] at h
    have := List.append_cancel_left h
    injection this

/-- The entry of `Tensor.diff` at `(m, sigma)` is `diffValue`. -/
theorem getv_diff (T : Tensor R Sym) (pdiff : Sym → R → R) (m : Idx) (sigma : Nat)
    (hm : m ∈ multiIndices T.dims T.rank) (hs : sigma < T.dims) :
    getv (T.diff pdiff).vals (m ++ [sigma]) = diffValue T pdiff m sigma := by
  rw [diff_vals_eq_setFold]
  refine getv_setFold_mem _ _ _ _ (nodupKeys_diff_flat T pdiff) ?_
  rw [mem_flatL]
  exact ⟨m, hm, List.mem_map.mpr ⟨sigma, List.mem_range.mpr hs, rfl⟩⟩

/-- `diffValue` as the covariant-derivative formula. -/
theorem diffValue_eq_sum (T : Tensor R Sym) (pdiff : Sym → R → R) (m : Idx) (sigma : Nat) :
    diffValue T pdiff m sigma =
      pdiff (T.man.coords.getD sigma default) (getv T.vals m) +
      (∑ idx ∈ (Finset.range T.rank).filter
          (fun idx => T.idxPos.getD idx IdxPos.l = IdxPos.u),
        ∑ alpha ∈ Finset.range T.dims,
          getv T.vals (m.set idx alpha) * getv T.man.gammas [m.getD idx 0, alpha, sigma]) -
      (∑ idx ∈ (Finset.range T.rank).filter
          (fun idx => ¬ T.idxPos.getD idx IdxPos.l = IdxPos.u),
        ∑ alpha ∈ Finset.range T.dims,
          getv T.vals (m.set idx alpha) * getv T.man.gammas [alpha, m.getD idx 0, sigma]) := by
  rw [diffValue]
  rw [foldl_ext _ (fun value idx => value +
      (if T.idxPos.getD idx IdxPos.l = IdxPos.u then
        ∑ alpha ∈ Finset.range T.dims,
          getv T.vals (m.set idx alpha) * getv T.man.gammas [m.getD idx 0, alpha, sigma]
      else
        -∑ alpha ∈ Finset.range T.dims,
          getv T.vals (m.set idx alpha) * getv T.man.gammas [alpha, m.getD idx 0, sigma]))
    (List.range T.rank) _ ?_]
  · rw [foldl_add_range, Finset.sum_ite, Finset.sum_neg_distrib]
    ring
  · intro acc idx _
    beta_reduce
    by_cases h : T.idxPos.getD idx IdxPos.l = IdxPos.u
    · rw [if_pos h, if_pos h, foldl_add_range]
    · rw [if_neg h, if_neg h, foldl_sub_range, sub_eq_add_neg]

/-- C4: `T.diff()` returns a tensor of rank `r + 1` whose signature is
`T`'s with one extra trailing lower slot, and whose value at `(m, sigma)`
equals the partial derivative of `T[m]` plus one `+Γ` correction per upper
slot and one `−Γ` correction per lower slot, each summed over a dummy
index. -/
theorem C4_covariant_diff (T : Tensor R Sym) (pdiff : Sym → R → R) (m : Idx) (sigma : Nat)
    (hm : m ∈ multiIndices T.dims T.rank) (hs : sigma < T.dims) :
    (T.diff pdiff).idxPos = T.idxPos ++ [IdxPos.l] ∧
    (T.diff pdiff).rank = T.rank + 1 ∧
    getv (T.diff pdiff).vals (m ++ [sigma]) =
      pdiff (T.man.coords.getD sigma default) (getv T.vals m) +
      (∑ idx ∈ (Finset.range T.rank).filter
          (fun idx => T.idxPos.getD idx IdxPos.l = IdxPos.u),
        ∑ alpha ∈ Finset.range T.dims,
          getv T.vals (m.set idx alpha) * getv T.man.gammas [m.getD idx 0, alpha, sigma]) -
      (∑ idx ∈ (Finset.range T.rank).filter
          (fun idx => ¬ T.idxPos.getD idx IdxPos.l = IdxPos.u),
        ∑ alpha ∈ Finset.range T.dims,
          getv T.vals (m.set idx alpha) * getv T.man.gammas [alpha, m.getD idx 0, sigma]) := by
  refine ⟨rfl, ?_, ?_⟩
  · show (T.idxPos ++ [IdxPos.l]).length = T.idxPos.length + 1
    rw [List.length_append]
    rfl
  · rw [getv_diff T pdiff m sigma hm hs, diffValue_eq_sum]

/-- Witness for C4 at a concrete rank-1 tensor. -/
theorem C4_covariant_diff_witness :
    ((⟨sampleM2, [IdxPos.u], [([0], 1)]⟩ : Tensor K Nat).diff pdiffSym).idxPos =
      [IdxPos.u] ++ [IdxPos.l] ∧
    ((⟨sampleM2, [IdxPos.u], [([0], 1)]⟩ : Tensor K Nat).diff pdiffSym).rank =
      (⟨sampleM2, [IdxPos.u], [([0], 1)]⟩ : Tensor K Nat).rank + 1 ∧
    getv ((⟨sampleM2, [IdxPos.u], [([0], 1)]⟩ : Tensor K Nat).diff pdiffSym).vals
        ([0] ++ [1]) =
      pdiffSym ((⟨sampleM2, [IdxPos.u], [([0], 1)]⟩ : Tensor K Nat).man.coords.getD 1 default)
        (getv [(([0] : Idx), (1 : K))] [0]) +
      (∑ idx ∈ (Finset.range 1).filter (fun idx => [IdxPos.u].getD idx IdxPos.l = IdxPos.u),
        ∑ alpha ∈ Finset.range 2,
          getv [(([0] : Idx), (1 : K))] (([0] : Idx).set idx alpha) *
            getv sampleM2.gammas [([0] : Idx).getD idx 0, alpha, 1]) -
      (∑ idx ∈ (Finset.range 1).filter (fun idx => ¬ [IdxPos.u].getD idx IdxPos.l = IdxPos.u),
        ∑ alpha ∈ Finset.range 2,
          getv [(([0] : Idx), (1 : K))] (([0] : Idx).set idx alpha) *
            getv sampleM2.gammas [alpha, ([0] : Idx).getD idx 0, 1]) :=
  C4_covariant_diff ⟨sampleM2, [IdxPos.u], [([0], 1)]⟩ pdiffSym [0] 1
    (by decide) (by decide)

end Claim4

section ListHelpers

variable {α : Type}

theorem get?_set_self (l : List α) (i : Nat) (a : α) (h : i < l.length) :
    (l.set i a).get? i = some a := by
  induction l generalizing i with
  | nil => simp at h
  | cons b rest ih =>
    match i with
    | 0 => rfl
    | Nat.succ j =>
      rw [List.set_cons_succ]
      show (rest.set j a).get? j = some a
      exact ih j (Nat.lt_of_succ_lt_succ h)

theorem set_set_same (l : List α) (i : Nat) (a b : α) :
    (l.set i a).set i b = l.set i b := by
  induction l generalizing i with
  | nil => rfl
  | cons c rest ih =>
    match i with
    | 0 => rfl
    | Nat.succ j =>
      rw [List.set_cons_succ, List.set_cons_succ, List.set_cons_succ, ih]

theorem getD_set_self (l : List α) (i : Nat) (a d : α) (h : i < l.length) :
    (l.set i a).getD i d = a := by
  induction l generalizing i with
  | nil => simp at h
  | cons b rest ih =>
    match i with
    | 0 => rfl
    | Nat.succ j =>
      rw [List.set_cons_succ]
      show (rest.set j a).getD j d = a
      exact ih j (Nat.lt_of_succ_lt_succ h)

theorem set_getD_self (l : List α) (i : Nat) (d : α) (h : i < l.length) :
    l.set i (l.getD i d) = l := by
  induction l generalizing i with
  | nil => rfl
  | cons b rest ih =>
    match i with
    | 0 => rfl
    | Nat.succ j =>
      show b :: rest.set j (rest.getD j d) = b :: rest
      rw [ih j (Nat.lt_of_succ_lt_succ h)]

theorem getD_mem_of_lt (l : List α) (i : Nat) (d : α) (h : i < l.length) :
    l.getD i d ∈ l := by
  induction l generalizing i with
  | nil => simp at h
  | cons b rest ih =>
    match i with
    | 0 => exact List.mem_cons_self _ _
    | Nat.succ j =>
      exact List.mem_cons_of_mem _ (ih j (Nat.lt_of_succ_lt_succ h))

end ListHelpers

section MetricTensor

variable {R : Type} [Field R] [DecidableEq R]
variable {Sym : Type} [DecidableEq Sym] [Inhabited Sym]

theorem mem_pairList (n : Nat) (p : Nat × Nat) :
    p ∈ pairList n ↔ p.1 < n ∧ p.2 < n := by
  rw [pairList, mem_flatL]
  constructor
  · intro ⟨i, hi, hp⟩
    rw [List.mem_map] at hp
    obtain ⟨j, hj, rfl⟩ := hp
    exact ⟨List.mem_range.mp hi, List.mem_range.mp hj⟩
  · intro ⟨h1, h2⟩
    exact ⟨p.1, List.mem_range.mpr h1,
      List.mem_map.mpr ⟨p.2, List.mem_range.mpr h2, by rfl⟩⟩

theorem nodup_pairList (n : Nat) : (pairList n).Nodup := by
  rw [pairList]
  refine nodup_flatL _ _ (List.nodup_range n) (fun i _ => ?_) ?_
  · exact (List.nodup_range n).map fun a b h => by injection h
  · intro i₁ _ i₂ _ hne b hb₁ hb₂
    rw [List.mem_map] at hb₁ hb₂
    obtain ⟨j₁, _, rfl⟩ := hb₁
    obtain ⟨j₂, _, h⟩ := hb₂
    injection h with h1 _
    exact hne h1.symm

/-- The entries list built by `Manifold.metric` / `metric_inv` from a
matrix `A` in range. -/
theorem matEntries_ok (n : Nat) (A : MatS R) (hr : n ≤ A.rows) (hc : n ≤ A.cols) :
    mapE (fun p => do
        let v ← A.get p.1 p.2
        Except.ok (([p.1, p.2] : Idx), v)) (pairList n) =
      .ok ((pairList n).map (fun p => ([p.1, p.2], A.entry p.1 p.2))) := by
  apply mapE_ok
  intro p hp
  obtain ⟨h1, h2⟩ := (mem_pairList n p).mp hp
  rw [MatS.get_ok A p.1 p.2 (lt_of_lt_of_le h1 hr) (lt_of_lt_of_le h2 hc), except_bind_ok]

theorem getv_matEntries (n : Nat) (A : MatS R) (i j : Nat) (hi : i < n) (hj : j < n) :
    getv (initVals ((pairList n).map (fun p => (([p.1, p.2] : Idx), A.entry p.1 p.2)))) [i, j]
      = A.entry i j := by
  have hnd : NodupKeys ((pairList n).map (fun p => (([p.1, p.2] : Idx), A.entry p.1 p.2))) := by
    rw [NodupKeys, List.map_map]
    refine List.Nodup.map ?_ (nodup_pairList n)
    intro p q h
    simp only [Function.comp] at h
    injection h with h1 h
    injection h with h2 _
    exact Prod.ext h1 h2
  rw [getv_initVals _ _ hnd]
  have hmem : (([i, j] : Idx), A.entry i j) ∈
      (pairList n).map (fun p => (([p.1, p.2] : Idx), A.entry p.1 p.2)) :=
    List.mem_map.mpr ⟨(i, j), (mem_pairList n (i, j)).mpr ⟨hi, hj⟩, rfl⟩
  unfold getv
  rw [lookupA_eq_of_mem_nodup _ _ _ hmem hnd]
  rfl

theorem metric_ok (M : Manifold R Sym)
    (hr : M.dims ≤ M.metricMat.rows) (hc : M.dims ≤ M.metricMat.cols) :
    Manifold.metric M = .ok (Tensor.make M [IdxPos.l, IdxPos.l]
      ((pairList M.dims).map (fun p => ([p.1, p.2], M.metricMat.entry p.1 p.2)))) := by
  simp only [Manifold.metric]
  rw [matEntries_ok M.dims M.metricMat hr hc, except_bind_ok]

theorem metricInv_ok (eInv : MatS R → Except PyErr (MatS R)) (M : Manifold R Sym)
    (gi : MatS R) (hE : eInv M.metricMat = .ok gi)
    (hr : M.dims ≤ gi.rows) (hc : M.dims ≤ gi.cols) :
    Manifold.metricInv eInv M = .ok (Tensor.make M [IdxPos.u, IdxPos.u]
      ((pairList M.dims).map (fun p => ([p.1, p.2], gi.entry p.1 p.2)))) := by
  simp only [Manifold.metricInv]
  rw [hE, except_bind_ok, matEntries_ok M.dims gi hr hc, except_bind_ok]

/-- Accumulation over blocks keyed by the outer loop variable: the stored
value at `k` is the inner sum at `k` if `k` is an outer key, else zero. -/
theorem getv_blockAddFold (L : List Idx) (hL : L.Nodup) (t : Idx → Nat → R)
    (n : Nat) (k : Idx) :
    getv ((flatL L (fun m => (List.range n).map (fun sigma => (m, t m sigma)))).foldl
        addStep []) k =
      if k ∈ L then ∑ sigma ∈ Finset.range n, t k sigma else 0 := by
  rw [getv_addFold, getv_nil, zero_add, keySum_flatL]
  rw [List.map_congr_left (fun m (hm : m ∈ L) =>
    show keySum ((List.range n).map (fun sigma => (m, t m sigma))) k =
      if m = k then ∑ sigma ∈ Finset.range n, t m sigma else 0 from by
    by_cases h : m = k
    · rw [if_pos h, ← h, keySum_map_const_key, sum_map_range]
    · rw [if_neg h, keySum_zero_of_no_key]
      intro p hp
      rw [List.mem_map] at hp
      obtain ⟨sigma, _, rfl⟩ := hp
      exact h)]
  by_cases hk : k ∈ L
  · rw [if_pos hk]
    exact sum_map_single L k (fun m => ∑ sigma ∈ Finset.range n, t m sigma) hL hk
  · rw [if_neg hk, List.sum_eq_zero]
    intro x hx
    rw [List.mem_map] at hx
    obtain ⟨m, hm, rfl⟩ := hx
    rw [if_neg (fun hc : m = k => hk (hc ▸ hm))]

end MetricTensor

section Claim7

variable {R : Type} [Field R] [DecidableEq R]
variable {Sym : Type} [DecidableEq Sym] [Inhabited Sym]

theorem get?_some_lt {α : Type} (l : List α) (i : Nat) (a : α)
    (h : l.get? i = some a) : i < l.length := by
  induction l generalizing i with
  | nil => cases h
  | cons b rest ih =>
    match i with
    | 0 => exact Nat.succ_pos _
    | Nat.succ j => exact Nat.succ_lt_succ (ih j h)

theorem getD_of_le {α : Type} (l : List α) (i : Nat) (d : α) (h : l.length ≤ i) :
    l.getD i d = d := by
  induction l generalizing i with
  | nil => rfl
  | cons b rest ih =>
    match i with
    | 0 => simp at h
    | Nat.succ j => exact ih j (Nat.le_of_succ_le_succ h)

theorem listGetE_ok {α : Type} (l : List α) (i : Nat) (a : α)
    (h : l.get? i = some a) : listGetE l i = .ok a := by
  rw [listGetE, h]

/-- `lower_index` under an in-shape metric: success and entry values. -/
theorem lowerIndex_char (T : Tensor R Sym) (i : Nat)
    (hpos : T.idxPos.get? i = some IdxPos.u)
    (hgr : T.dims ≤ T.man.metricMat.rows) (hgc : T.dims ≤ T.man.metricMat.cols) :
    ∃ L : Tensor R Sym, T.lowerIndex i = .ok L ∧ L.man = T.man ∧
      L.idxPos = T.idxPos.set i IdxPos.l ∧
      ∀ k, getv L.vals k =
        if k ∈ multiIndices T.dims T.rank then
          ∑ sigma ∈ Finset.range T.dims,
            getv (initVals ((pairList T.dims).map
              (fun p => (([p.1, p.2] : Idx), T.man.metricMat.entry p.1 p.2)))) [k.getD i 0, sigma]
              * getv T.vals (k.set i sigma)
        else 0 := by
  refine ⟨⟨T.man, T.idxPos.set i IdxPos.l,
    (multiIndices T.dims T.rank).foldl (fun vs m =>
      (List.range T.dims).foldl (fun vs sigma =>
        addAt vs m (getv (Tensor.make T.man [IdxPos.l, IdxPos.l] ((pairList T.dims).map
          (fun p => (([p.1, p.2] : Idx), T.man.metricMat.entry p.1 p.2)))).vals
            [m.getD i 0, sigma] * getv T.vals (m.set i sigma))) vs) []⟩, ?_, rfl, rfl, ?_⟩
  · simp only [Tensor.lowerIndex]
    rw [listGetE_ok T.idxPos i IdxPos.u hpos, except_bind_ok,
      if_neg (show ¬ IdxPos.u = IdxPos.l by decide),
      metric_ok T.man hgr hgc, except_bind_ok]
    rfl
  · intro k
    show getv ((multiIndices T.dims T.rank).foldl (fun vs m =>
      (List.range T.dims).foldl (fun vs sigma =>
        addAt vs m (getv (Tensor.make T.man [IdxPos.l, IdxPos.l] ((pairList T.dims).map
          (fun p => (([p.1, p.2] : Idx), T.man.metricMat.entry p.1 p.2)))).vals
            [m.getD i 0, sigma] * getv T.vals (m.set i sigma))) vs) []) k = _
    rw [foldl_ext _ (fun vs m => ((List.range T.dims).map (fun sigma =>
        (m, getv (initVals ((pairList T.dims).map
          (fun p => (([p.1, p.2] : Idx), T.man.metricMat.entry p.1 p.2)))) [m.getD i 0, sigma]
          * getv T.vals (m.set i sigma)))).foldl addStep vs) _ _ ?_]
    · rw [foldl_flatL]
      exact getv_blockAddFold (multiIndices T.dims T.rank) (nodup_multiIndices _ _) _ _ k
    · intro acc m _
      beta_reduce
      rw [List.foldl_map]
      rfl

/-- `raise_index` under an in-shape engine inverse: success and entry
values. -/
theorem raiseIndex_char (eInv : MatS R → Except PyErr (MatS R)) (T : Tensor R Sym)
    (i : Nat) (gi : MatS R) (hpos : T.idxPos.get? i = some IdxPos.l)
    (hE : eInv T.man.metricMat = .ok gi)
    (hgr : T.dims ≤ gi.rows) (hgc : T.dims ≤ gi.cols) :
    ∃ H : Tensor R Sym, Tensor.raiseIndex eInv T i = .ok H ∧ H.man = T.man ∧
      H.idxPos = T.idxPos.set i IdxPos.u ∧
      ∀ k, getv H.vals k =
        if k ∈ multiIndices T.dims T.rank then
          ∑ sigma ∈ Finset.range T.dims,
            getv (initVals ((pairList T.dims).map
              (fun p => (([p.1, p.2] : Idx), gi.entry p.1 p.2)))) [k.getD i 0, sigma]
              * getv T.vals (k.set i sigma)
        else 0 := by
  refine ⟨⟨T.man, T.idxPos.set i IdxPos.u,
    (multiIndices T.dims T.rank).foldl (fun vs m =>
      (List.range T.dims).foldl (fun vs sigma =>
        addAt vs m (getv (Tensor.make T.man [IdxPos.u, IdxPos.u] ((pairList T.dims).map
          (fun p => (([p.1, p.2] : Idx), gi.entry p.1 p.2)))).vals
            [m.getD i 0, sigma] * getv T.vals (m.set i sigma))) vs) []⟩, ?_, rfl, rfl, ?_⟩
  · simp only [Tensor.raiseIndex]
    rw [listGetE_ok T.idxPos i IdxPos.l hpos, except_bind_ok,
      if_neg (show ¬ IdxPos.l = IdxPos.u by decide),
      metricInv_ok eInv T.man gi hE hgr hgc, except_bind_ok]
    rfl
  · intro k
    show getv ((multiIndices T.dims T.rank).foldl (fun vs m =>
      (List.range T.dims).foldl (fun vs sigma =>
        addAt vs m (getv (Tensor.make T.man [IdxPos.u, IdxPos.u] ((pairList T.dims).map
          (fun p => (([p.1, p.2] : Idx), gi.entry p.1 p.2)))).vals
            [m.getD i 0, sigma] * getv T.vals (m.set i sigma))) vs) []) k = _
    rw [foldl_ext _ (fun vs m => ((List.range T.dims).map (fun sigma =>
        (m, getv (initVals ((pairList T.dims).map
          (fun p => (([p.1, p.2] : Idx), gi.entry p.1 p.2)))) [m.getD i 0, sigma]
          * getv T.vals (m.set i sigma)))).foldl addStep vs) _ _ ?_]
    · rw [foldl_flatL]
      exact getv_blockAddFold (multiIndices T.dims T.rank) (nodup_multiIndices _ _) _ _ k
    · intro acc m _
      beta_reduce
      rw [List.foldl_map]
      rfl

theorem set_of_get? {α : Type} (l : List α) (i : Nat) (a : α)
    (h : l.get? i = some a) : l.set i a = l := by
  induction l generalizing i with
  | nil => rfl
  | cons b rest ih =>
    match i with
    | 0 =>
      injection h with h
      rw [List.set_cons_zero, h]
    | Nat.succ j =>
      rw [List.set_cons_succ, ih j h]

/-- C7: for a tensor over a manifold with a diagonal (nondegenerate) metric
whose engine inverse is the diagonal matrix of reciprocals, and a slot `i`
whose position is up, `T.lower_index(i).raise_index(i)` reproduces `T`: the
signature is unchanged and the value at every index tuple equals `T`'s
value there.  The well-formedness hypotheses are the spec's data model:
stored keys are `n`-bounded tuples of the tensor's rank. -/
theorem C7_lower_raise_roundtrip (eInv : MatS R → Except PyErr (MatS R))
    (T : Tensor R Sym) (i : Nat) (gi : MatS R)
    (hpos : T.idxPos.get? i = some IdxPos.u)
    (hgr : T.man.metricMat.rows = T.dims) (hgc : T.man.metricMat.cols = T.dims)
    (hE : eInv T.man.metricMat = .ok gi)
    (hir : gi.rows = T.dims) (hic : gi.cols = T.dims)
    (hdiag : ∀ a < T.dims, ∀ b < T.dims, a ≠ b → T.man.metricMat.entry a b = 0)
    (hidiag : ∀ a < T.dims, ∀ b < T.dims, a ≠ b → gi.entry a b = 0)
    (hinv : ∀ a < T.dims, gi.entry a a * T.man.metricMat.entry a a = 1)
    (hwf : ∀ p ∈ T.vals, p.1 ∈ multiIndices T.dims T.rank) :
    ∃ L T2 : Tensor R Sym, T.lowerIndex i = .ok L ∧
      Tensor.raiseIndex eInv L i = .ok T2 ∧
      T2.idxPos = T.idxPos ∧ T2.man = T.man ∧
      ∀ k, getv T2.vals k = getv T.vals k := by
  have hilen : i < T.idxPos.length := get?_some_lt _ _ _ hpos
  obtain ⟨L, hLok, hLman, hLpos, hLget⟩ := lowerIndex_char T i hpos hgr.ge hgc.ge
  have hLposGet : L.idxPos.get? i = some IdxPos.l := by
    rw [hLpos]
    exact get?_set_self _ _ _ hilen
  have hLdims : L.dims = T.dims := by
    show L.man.dims = T.man.dims
    rw [hLman]
  have hLrank : L.rank = T.rank := by
    show L.idxPos.length = T.idxPos.length
    rw [hLpos, List.length_set]
  have hEL : eInv L.man.metricMat = .ok gi := by rw [hLman]; exact hE
  obtain ⟨H, hHok, hHman, hHpos, hHget⟩ := raiseIndex_char eInv L i gi hLposGet hEL
    (by rw [hLdims]; exact hir.ge) (by rw [hLdims]; exact hic.ge)
  refine ⟨L, H, hLok, hHok, ?_, hHman.trans hLman, ?_⟩
  · rw [hHpos, hLpos, set_set_same, set_of_get? T.idxPos i IdxPos.u hpos]
  · intro k
    rw [hHget k]
    rw [hLdims, hLrank, hLman] at *
    by_cases hk : k ∈ multiIndices T.dims T.rank
    · rw [if_pos hk]
      obtain ⟨hklen, hkbound⟩ := (mem_multiIndices _ _ _).mp hk
      have hklen' : i < k.length := by rw [hklen]; exact hilen
      have ha : k.getD i 0 < T.dims := hkbound _ (getD_mem_of_lt k i 0 hklen')
      have hstep : ∀ sigma ∈ Finset.range T.dims,
          getv (initVals ((pairList T.dims).map
            (fun p => (([p.1, p.2] : Idx), gi.entry p.1 p.2)))) [k.getD i 0, sigma]
            * getv L.vals (k.set i sigma) =
          gi.entry (k.getD i 0) sigma *
            ∑ tau ∈ Finset.range T.dims,
              T.man.metricMat.entry sigma tau * getv T.vals (k.set i tau) := by
        intro sigma hsig
        rw [Finset.mem_range] at hsig
        rw [getv_matEntries T.dims gi (k.getD i 0) sigma ha hsig]
        rw [hLget (k.set i sigma), if_pos (set_mem_multiIndices i sigma hk hsig)]
        congr 1
        apply Finset.sum_congr rfl
        intro tau htau
        rw [Finset.mem_range] at htau
        rw [getD_set_self k i sigma 0 hklen', set_set_same,
          getv_matEntries T.dims T.man.metricMat sigma tau hsig htau]
      rw [Finset.sum_congr rfl hstep]
      rw [Finset.sum_eq_single (k.getD i 0)]
      · rw [Finset.sum_eq_single (k.getD i 0)]
        · rw [set_getD_self k i 0 hklen', ← mul_assoc, hinv _ ha, one_mul]
        · intro tau htau hne
          rw [Finset.mem_range] at htau
          rw [hdiag _ ha _ htau (fun hc => hne hc.symm), zero_mul]
        · intro hc
          exact absurd (Finset.mem_range.mpr ha) hc
      · intro sigma hsig hne
        rw [Finset.mem_range] at hsig
        rw [hidiag _ ha _ hsig (fun hc => hne hc.symm), zero_mul]
      · intro hc
        exact absurd (Finset.mem_range.mpr ha) hc
    · rw [if_neg hk]
      unfold getv
      rw [lookupA_eq_none_of_not_mem T.vals k]
      · rfl
      · intro hc
        rw [List.mem_map] at hc
        obtain ⟨p, hp, hpk⟩ := hc
        exact hk (hpk ▸ hwf p hp)

/-- Witness for C7 at a concrete rank-1 tensor over the `diag(2, 3)`
metric. -/
theorem C7_lower_raise_roundtrip_witness :
    ∃ L T2 : Tensor K Nat, sampleT7.lowerIndex 0 = .ok L ∧
      Tensor.raiseIndex eInvDiag23 L 0 = .ok T2 ∧
      T2.idxPos = sampleT7.idxPos ∧ T2.man = sampleT7.man ∧
      ∀ k, getv T2.vals k = getv sampleT7.vals k :=
  C7_lower_raise_roundtrip eInvDiag23 sampleT7 0 giDiag23 rfl rfl rfl rfl rfl rfl
    (by decide) (by decide) (by decide) (by decide)

end Claim7

section Claim9

variable {R : Type} [Field R] [DecidableEq R]
variable {Sym : Type} [DecidableEq Sym] [Inhabited Sym]

/-- When the metric is square but smaller than the coordinate count, the
Christoffel loop hits an out-of-shape subscription and raises
`IndexError`. -/
theorem christoffel_error_of_small (eInv : MatS R → Except PyErr (MatS R))
    (pdiff : Sym → R → R) (coords : List Sym) (g gi : MatS R)
    (hE : eInv g = .ok gi) (hsq : g.cols = g.rows)
    (hir : gi.rows = g.rows) (hic : gi.cols = g.rows)
    (hlt : g.rows < coords.length) :
    christoffel eInv pdiff coords g = .error .indexError := by
  have hn0 : 0 < coords.length := Nat.lt_of_le_of_lt (Nat.zero_le _) hlt
  have hgam : ∀ (b : R), (List.range coords.length).foldlM (fun (gamma : R) nu => do
      let gmn ← gi.get 0 nu
      let gan ← g.get 0 nu
      let gnb ← g.get nu 0
      let gab ← g.get 0 0
      Except.ok (gamma + gmn * (pdiff (coords.getD 0 default) gan +
        pdiff (coords.getD 0 default) gnb - pdiff (coords.getD nu default) gab)))
      b = .error .indexError := by
    intro b
    apply foldlM_range_error coords.length g.rows hlt
    · intro b' i hi
      have h0r : 0 < g.rows := Nat.lt_of_le_of_lt (Nat.zero_le _) hi
      exact ⟨_, by
        rw [MatS.get_ok gi 0 i (by rw [hir]; exact h0r) (by rw [hic]; exact hi),
          except_bind_ok,
          MatS.get_ok g 0 i h0r (by rw [hsq]; exact hi), except_bind_ok,
          MatS.get_ok g i 0 hi (by rw [hsq]; exact h0r), except_bind_ok,
          MatS.get_ok g 0 0 h0r (by rw [hsq]; exact h0r), except_bind_ok]⟩
    · intro b'
      rw [MatS.get_error gi 0 g.rows (fun hc => by rw [hic] at hc; exact lt_irrefl _ hc.2),
        except_bind_error]
  simp only [christoffel]
  rw [hE, except_bind_ok]
  apply foldlM_range_error coords.length 0 hn0
  · intro b i hi
    exact absurd hi (Nat.not_lt_zero i)
  · intro vals
    apply foldlM_range_error coords.length 0 hn0
    · intro b i hi
      exact absurd hi (Nat.not_lt_zero i)
    · intro vals2
      apply foldlM_range_error coords.length 0 hn0
      · intro b i hi
        exact absurd hi (Nat.not_lt_zero i)
      · intro vals3
        beta_reduce
        rw [hgam 0, except_bind_error]

/-- C9 amended: `Manifold(metric, coords)` construction succeeds exactly
when the metric is a square matrix of size at least `len(coords)` that the
engine can invert.  It does fail for a non-square metric (the engine's
inversion fails) and for a square metric smaller than `len(coords)` (an
out-of-shape subscription in the Christoffel loop), but — contrary to the
claim — a square metric strictly larger than `len(coords)` is accepted:
the loops only read the top-left `len(coords)` block, and a `Manifold` is
returned. -/
theorem C9_construction_success_iff (eInv : MatS R → Except PyErr (MatS R))
    (pdiff : Sym → R → R) (g : MatS R) (coords : List Sym)
    (hE1 : ∀ M : MatS R, M.rows ≠ M.cols → ∃ e, eInv M = .error e)
    (hE2 : ∀ M gi, eInv M = .ok gi → gi.rows = M.rows ∧ gi.cols = M.cols) :
    (∃ Mf, Manifold.make eInv pdiff g coords = .ok Mf) ↔
      (g.rows = g.cols ∧ coords.length ≤ g.rows ∧ ∃ gi, eInv g = .ok gi) := by
  constructor
  · rintro ⟨Mf, hMf⟩
    cases heq : eInv g with
    | error e =>
      simp only [Manifold.make, christoffel] at hMf
      rw [heq, except_bind_error, except_bind_error] at hMf
      cases hMf
    | ok gi =>
      have hshape := hE2 g gi heq
      have hsq : g.rows = g.cols := by
        by_contra hne
        obtain ⟨e, he⟩ := hE1 g hne
        rw [he] at heq
        cases heq
      refine ⟨hsq, ?_, gi, rfl⟩
      by_contra hgt
      push_neg at hgt
      have hchr := christoffel_error_of_small eInv pdiff coords g gi heq hsq.symm
        hshape.1 (hshape.2.trans hsq.symm) hgt
      simp only [Manifold.make] at hMf
      rw [hchr, except_bind_error] at hMf
      cases hMf
  · rintro ⟨hsq, hle, gi, hgi⟩
    have hshape := hE2 g gi hgi
    exact ⟨_, make_ok eInv pdiff coords g gi hgi hle (by rw [← hsq]; exact hle)
      (by rw [hshape.1]; exact hle) (by rw [hshape.2, ← hsq]; exact hle)⟩

/-- Witness for C9 at a 2×2 identity metric over two coordinates, with an
engine that inverts only 2×2 matrices. -/
theorem C9_construction_success_iff_witness :
    ∃ Mf : Manifold K Nat, Manifold.make eInvSq2 pdiffZero matId2 [0, 1] = .ok Mf :=
  (C9_construction_success_iff eInvSq2 pdiffZero matId2 [0, 1]
    (fun M h => by
      refine ⟨.engineError, ?_⟩
      show (if M.rows = 2 ∧ M.cols = 2 then
        Except.ok matId2 else Except.error PyErr.engineError) = _
      rw [if_neg]
      intro hc
      exact h (hc.1.trans hc.2.symm))
    (fun M gi hok => by
      by_cases hc : M.rows = 2 ∧ M.cols = 2
      · have : Except.ok (ε := PyErr) matId2 = Except.ok gi := by
          rw [← hok]
          show _ = (if M.rows = 2 ∧ M.cols = 2 then
            Except.ok matId2 else Except.error PyErr.engineError)
          rw [if_pos hc]
        have hgi : gi = matId2 := (Except.ok.inj this).symm
        rw [hgi, hc.1, hc.2]
        exact ⟨rfl, rfl⟩
      · exfalso
        have : Except.error (α := MatS K) PyErr.engineError = Except.ok gi := by
          rw [← hok]
          show _ = (if M.rows = 2 ∧ M.cols = 2 then
            Except.ok matId2 else Except.error PyErr.engineError)
          rw [if_neg hc]
        cases this)).mpr
    ⟨rfl, by decide, matId2, rfl⟩

/-- C9 counterexample: a 3×3 metric over a 2-coordinate system is not
rejected — `Manifold` construction succeeds (with an empty connection),
because the Christoffel loops only touch the top-left 2×2 block and no
shape check is ever performed. -/
theorem C9_construction_counterexample :
    gammasOf (Manifold.make eInvId3 pdiffZero matId3 [0, 1]) = some [] := by
  decide

end Claim9

section RiemannLemmas

variable {R : Type} [Field R] [DecidableEq R]
variable {Sym : Type} [DecidableEq Sym] [Inhabited Sym]

theorem riemannAssemble_eq_addFold (M : Manifold R Sym) (pdiff : Sym → R → R) :
    riemannAssemble M pdiff = (riemannFlat M pdiff).foldl addStep [] := by
  simp only [riemannAssemble, riemannFlat]
  rw [← foldl_flatL]
  apply foldl_ext
  intro a1 alpha _
  rw [← foldl_flatL]
  apply foldl_ext
  intro a2 beta _
  rw [← foldl_flatL]
  apply foldl_ext
  intro a3 mu _
  rw [← foldl_flatL]
  apply foldl_ext
  intro a4 nu _
  rw [List.foldl_cons, ← foldl_flatL]
  apply foldl_ext
  intro a5 sigma _
  rw [List.foldl_cons, List.foldl_cons, List.foldl_nil, subAt_eq_addAt]
  rfl

theorem keySum_quadBlock (q : Idx) (D : R) (P1 P2 : Nat → R) (n : Nat) (k : Idx) :
    keySum ((q, D) ::
        flatL (List.range n) (fun s => [(q, P1 s), (q, -(P2 s))])) k =
      if q = k then D + ∑ s ∈ Finset.range n, (P1 s - P2 s) else 0 := by
  rw [keySum_cons, keySum_flatL_range]
  by_cases h : q = k
  · rw [if_pos h, if_pos h]
    congr 1
    apply Finset.sum_congr rfl
    intro s _
    rw [keySum_cons, if_pos h, keySum_single, if_pos h, ← sub_eq_add_neg]
  · rw [if_neg h, if_neg h]
    apply Finset.sum_eq_zero
    intro s _
    rw [keySum_cons, if_neg h, keySum_single, if_neg h]

theorem sum4_collapse (n a b c d : Nat) (ha : a < n) (hb : b < n) (hc : c < n)
    (hd : d < n) {f : Nat → Nat → Nat → Nat → R} :
    (∑ al ∈ Finset.range n, ∑ be ∈ Finset.range n, ∑ m ∈ Finset.range n,
      ∑ nu ∈ Finset.range n,
        (if al = a ∧ be = b ∧ m = c ∧ nu = d then f al be m nu else 0)) =
      f a b c d := by
  have h4 : ∀ al be m : Nat,
      (∑ nu ∈ Finset.range n,
        (if al = a ∧ be = b ∧ m = c ∧ nu = d then f al be m nu else 0)) =
      (if al = a ∧ be = b ∧ m = c then f al be m d else 0) := by
    intro al be m
    by_cases h : al = a ∧ be = b ∧ m = c
    · rw [if_pos h]
      have hz : ∀ nu ∈ Finset.range n, nu ≠ d →
          (if al = a ∧ be = b ∧ m = c ∧ nu = d then f al be m nu else 0) = 0 :=
        fun nu _ hnu => if_neg fun hcon => hnu hcon.2.2.2
      have hd0 : d ∉ Finset.range n →
          (if al = a ∧ be = b ∧ m = c ∧ d = d then f al be m d else 0) = 0 :=
        fun hcon => absurd (Finset.mem_range.mpr hd) hcon
      rw [Finset.sum_eq_single d hz hd0, if_pos ⟨h.1, h.2.1, h.2.2, rfl⟩]
    · rw [if_neg h]
      exact Finset.sum_eq_zero fun nu _ =>
        if_neg fun hcon => h ⟨hcon.1, hcon.2.1, hcon.2.2.1⟩
  have h3 : ∀ al be : Nat,
      (∑ m ∈ Finset.range n,
        (if al = a ∧ be = b ∧ m = c then f al be m d else 0)) =
      (if al = a ∧ be = b then f al be c d else 0) := by
    intro al be
    by_cases h : al = a ∧ be = b
    · rw [if_pos h]
      have hz : ∀ m ∈ Finset.range n, m ≠ c →
          (if al = a ∧ be = b ∧ m = c then f al be m d else 0) = 0 :=
        fun m _ hm => if_neg fun hcon => hm hcon.2.2
      have hc0 : c ∉ Finset.range n →
          (if al = a ∧ be = b ∧ c = c then f al be c d else 0) = 0 :=
        fun hcon => absurd (Finset.mem_range.mpr hc) hcon
      rw [Finset.sum_eq_single c hz hc0, if_pos ⟨h.1, h.2, rfl⟩]
    · rw [if_neg h]
      exact Finset.sum_eq_zero fun m _ =>
        if_neg fun hcon => h ⟨hcon.1, hcon.2.1⟩
  have h2 : ∀ al : Nat,
      (∑ be ∈ Finset.range n,
        (if al = a ∧ be = b then f al be c d else 0)) =
      (if al = a then f al b c d else 0) := by
    intro al
    by_cases h : al = a
    · rw [if_pos h]
      have hz : ∀ be ∈ Finset.range n, be ≠ b →
          (if al = a ∧ be = b then f al be c d else 0) = 0 :=
        fun be _ hbe => if_neg fun hcon => hbe hcon.2
      have hb0 : b ∉ Finset.range n →
          (if al = a ∧ b = b then f al b c d else 0) = 0 :=
        fun hcon => absurd (Finset.mem_range.mpr hb) hcon
      rw [Finset.sum_eq_single b hz hb0, if_pos ⟨h, rfl⟩]
    · rw [if_neg h]
      exact Finset.sum_eq_zero fun be _ =>
        if_neg fun hcon => h hcon.1
  simp only [h4]
  simp only [h3]
  simp only [h2]
  have hz : ∀ al ∈ Finset.range n, al ≠ a →
      (if al = a then f al b c d else 0) = 0 :=
    fun al _ hal => if_neg hal
  have ha0 : a ∉ Finset.range n → (if a = a then f a b c d else 0) = 0 :=
    fun hcon => absurd (Finset.mem_range.mpr ha) hcon
  rw [Finset.sum_eq_single a hz ha0, if_pos rfl]

/-- The value assembled by the Riemann accumulation loop at an in-range
index quadruple: the derivative term plus the `Γ·Γ` sum. -/
theorem getv_riemannAssemble (M : Manifold R Sym) (pdiff : Sym → R → R)
    (a b c d : Nat) (ha : a < M.dims) (hb : b < M.dims) (hc : c < M.dims)
    (hd : d < M.dims) :
    getv (riemannAssemble M pdiff) [a, b, c, d] =
      pdiff (M.coords.getD c default) (getv M.gammas [a, b, d]) -
        pdiff (M.coords.getD d default) (getv M.gammas [a, b, c]) +
      ∑ s ∈ Finset.range M.dims,
        (getv M.gammas [a, s, c] * getv M.gammas [s, b, d] -
          getv M.gammas [a, s, d] * getv M.gammas [s, b, c]) := by
  rw [riemannAssemble_eq_addFold, getv_addFold, getv_nil, zero_add, riemannFlat]
  simp only [keySum_flatL_range]
  simp only [keySum_quadBlock]
  simp only [List.cons.injEq, eq_self_iff_true, and_true]
  rw [sum4_collapse M.dims a b c d ha hb hc hd]

theorem zeroFree_riemannAssemble (M : Manifold R Sym) (pdiff : Sym → R → R) :
    ZeroFree (riemannAssemble M pdiff) := by
  rw [riemannAssemble_eq_addFold]
  exact zeroFree_addFold _ _ (fun p hp => absurd hp (List.not_mem_nil p))

theorem nodupKeys_riemannAssemble (M : Manifold R Sym) (pdiff : Sym → R → R) :
    NodupKeys (riemannAssemble M pdiff) := by
  rw [riemannAssemble_eq_addFold]
  exact nodupKeys_addFold _ _ nodupKeys_nil

/-- `simplify()` with a simplifier that fixes every stored value succeeds
on a zero-free dict with distinct keys and preserves every lookup. -/
theorem simplifyVals_id (vals : Vals R) (simpf : R → R) (hsimp : ∀ v, simpf v = v)
    (hzf : ZeroFree vals) (hnd : NodupKeys vals) :
    ∃ vs, simplifyVals simpf vals = .ok vs ∧ ∀ k, getv vs k = getv vals k := by
  rw [simplifyVals, iterWriteAux_ok _ _ _ (fun p hp => by
    show simpf p.2 ≠ 0
    rw [hsimp]
    exact hzf p hp)]
  refine ⟨_, rfl, ?_⟩
  intro k
  have hfold : vals.foldl (fun a p => setItem a p.1 ((fun _ v => simpf v) p.1 p.2)) vals
      = vals.foldl setStep vals :=
    foldl_ext _ _ _ _ (fun acc p _ => by
      show setItem acc p.1 (simpf p.2) = setStep acc p
      rw [hsimp]
      rfl)
  rw [hfold]
  by_cases hk : k ∈ vals.map Prod.fst
  · obtain ⟨p, hp, hpk⟩ := List.mem_map.mp hk
    have hmem : (k, p.2) ∈ vals := by
      have hpe : p = (k, p.2) := Prod.ext hpk rfl
      exact hpe ▸ hp
    rw [getv_setFold_mem vals vals k p.2 hnd hmem]
    unfold getv
    rw [lookupA_eq_of_mem_nodup vals k p.2 hmem hnd]
    rfl
  · rw [getv_setFold_not_mem vals vals k hk]

/-- `RiemannTensor.__init__` succeeds whenever the simplifier fixes every
value, yielding a `ulll` tensor over `M` whose lookups agree with the
accumulation loop. -/
theorem riemannBuild_ok (M : Manifold R Sym) (pdiff : Sym → R → R) (simpf : R → R)
    (hsimp : ∀ v, simpf v = v) :
    ∃ RT, RiemannTensor.build M pdiff simpf = .ok RT ∧ RT.man = M ∧
      RT.idxPos = [IdxPos.u, IdxPos.l, IdxPos.l, IdxPos.l] ∧
      ∀ k, getv RT.vals k = getv (riemannAssemble M pdiff) k := by
  obtain ⟨vs, hok, hget⟩ := simplifyVals_id (riemannAssemble M pdiff) simpf hsimp
    (zeroFree_riemannAssemble M pdiff) (nodupKeys_riemannAssemble M pdiff)
  refine ⟨⟨M, [IdxPos.u, IdxPos.l, IdxPos.l, IdxPos.l], vs⟩, ?_, rfl, rfl, hget⟩
  rw [RiemannTensor.build, hok, except_map_ok]

/-- `__getitem__` with four known coordinate-name slots returns the stored
value at the translated quadruple (or zero). -/
theorem getItemE_names (nm : List (Sym × Nat)) (vals : Vals R)
    (s1 s2 s3 s4 : Sym) (k1 k2 k3 k4 : Nat)
    (h1 : lookupA nm s1 = some k1) (h2 : lookupA nm s2 = some k2)
    (h3 : lookupA nm s3 = some k3) (h4 : lookupA nm s4 = some k4) :
    getItemE nm vals [Slot.name s1, Slot.name s2, Slot.name s3, Slot.name s4] =
      .ok (getv vals [k1, k2, k3, k4]) := by
  have hall : ∀ s ∈ [Slot.name s1, Slot.name s2, Slot.name s3, Slot.name s4],
      translateSlot nm s = .ok (slotFn nm s) := by
    intro s hs
    rcases List.mem_cons.mp hs with rfl | hs
    · rw [translateSlot, h1, slotFn, h1]; rfl
    · rcases List.mem_cons.mp hs with rfl | hs
      · rw [translateSlot, h2, slotFn, h2]; rfl
      · rcases List.mem_cons.mp hs with rfl | hs
        · rw [translateSlot, h3, slotFn, h3]; rfl
        · rcases List.mem_cons.mp hs with rfl | hs
          · rw [translateSlot, h4, slotFn, h4]; rfl
          · exact absurd hs (List.not_mem_nil s)
  rw [getItemE, translateMulti, mapE_ok (translateSlot nm) (slotFn nm) _ hall,
    except_map_ok, List.map_cons, List.map_cons, List.map_cons, List.map_cons,
    List.map_nil]
  simp only [slotFn, h1, h2, h3, h4, Option.getD_some]

end RiemannLemmas

section Claim3

variable {R : Type} [Field R] [DecidableEq R]
variable {Sym : Type} [DecidableEq Sym] [Inhabited Sym]

/-- C3: For the unit 2-sphere with coordinates `(θ, φ)` and metric
`diag(1, sin²θ)` — with `s`, `c` standing for `sin θ`, `cos θ`
(`s² + c² = 1`), the engine's matrix inverse returning `diag(1, g^{φφ})`
with `g^{φφ}·s² = 1`, and the engine's derivative satisfying the usual
rules (`∂(s²)/∂θ = 2sc`, `∂(−sc)/∂θ = s² − c²`,
`∂(g^{φφ}sc)/∂θ = −g^{φφ}`, the value `g^{φφ}sc` being `cot θ`, constants
and φ-independence as expected) — the constructed `RiemannTensor`
satisfies `R[θ,φ,θ,φ] = sin²θ`, `R[θ,φ,φ,θ] = −sin²θ`, `R[φ,θ,φ,θ] = 1`
and `R[φ,θ,θ,φ] = −1`, each entry assembled by
`R^α_{βμν} = ∂Γ^α_{βν}/∂x_μ − ∂Γ^α_{βμ}/∂x_ν +
Σ_σ (Γ^α_{σμ}Γ^σ_{βν} − Γ^α_{σν}Γ^σ_{βμ})` followed by simplification of
every stored entry. -/
theorem C3_sphere_riemann (eInv : MatS R → Except PyErr (MatS R))
    (pdiff : Sym → R → R) (simpf : R → R) (th ph : Sym) (s c : R)
    (gi : MatS R) (M : Manifold R Sym)
    (hsym : th ≠ ph)
    (hsc : s * s + c * c = 1) (h2 : (2 : R) ≠ 0)
    (hgr : gi.rows = 2) (hgc : gi.cols = 2)
    (hgi00 : gi.entry 0 0 = 1) (hgi01 : gi.entry 0 1 = 0)
    (hgi10 : gi.entry 1 0 = 0) (hgi11 : gi.entry 1 1 * (s * s) = 1)
    (hE : eInv (sphereMetric s) = .ok gi)
    (hdth0 : pdiff th 0 = 0) (hdph0 : pdiff ph 0 = 0)
    (hdth1 : pdiff th 1 = 0) (hdph1 : pdiff ph 1 = 0)
    (hdthss : pdiff th (s * s) = 2 * (s * c)) (hdphss : pdiff ph (s * s) = 0)
    (hdthsc : pdiff th (-(s * c)) = s * s - c * c)
    (hdthcot : pdiff th (gi.entry 1 1 * (s * c)) = -(gi.entry 1 1))
    (hsimp : ∀ v, simpf v = v)
    (hM : Manifold.make eInv pdiff (sphereMetric s) [th, ph] = .ok M) :
    ∃ RT, RiemannTensor.build M pdiff simpf = .ok RT ∧
      Tensor.getItem RT [Slot.name th, Slot.name ph, Slot.name th, Slot.name ph] =
        .ok (s * s) ∧
      Tensor.getItem RT [Slot.name th, Slot.name ph, Slot.name ph, Slot.name th] =
        .ok (-(s * s)) ∧
      Tensor.getItem RT [Slot.name ph, Slot.name th, Slot.name ph, Slot.name th] =
        .ok 1 ∧
      Tensor.getItem RT [Slot.name ph, Slot.name th, Slot.name th, Slot.name ph] =
        .ok (-1) := by
  have hM' := make_ok eInv pdiff [th, ph] (sphereMetric s) gi hE
    (Nat.le.refl) (Nat.le.refl) (by rw [hgr]; exact Nat.le.refl)
    (by rw [hgc]; exact Nat.le.refl)
  have hMeq : M = ⟨sphereMetric s, [th, ph],
      christoffelLoop pdiff [th, ph] (sphereMetric s) gi⟩ :=
    Except.ok.inj (hM.symm.trans hM')
  have hgam : M.gammas = christoffelLoop pdiff [th, ph] (sphereMetric s) gi := by
    rw [hMeq]
  have hdims : M.dims = 2 := by
    rw [Manifold.dims, hMeq]
    rfl
  have hMx0 : M.coords.getD 0 default = th := by rw [hMeq]; rfl
  have hMx1 : M.coords.getD 1 default = ph := by rw [hMeq]; rfl
  have hx0 : ([th, ph] : List Sym).getD 0 default = th := rfl
  have hx1 : ([th, ph] : List Sym).getD 1 default = ph := rfl
  have hm00 : (sphereMetric s).entry 0 0 = (1 : R) := rfl
  have hm01 : (sphereMetric s).entry 0 1 = (0 : R) := rfl
  have hm10 : (sphereMetric s).entry 1 0 = (0 : R) := rfl
  have hm11 : (sphereMetric s).entry 1 1 = s * s := rfl
  have hg000 : getv M.gammas [0, 0, 0] = 0 := by
    rw [hgam, getv_christoffelLoop pdiff [th, ph] (sphereMetric s) gi 0 0 0
      (Nat.succ_pos 1) (Nat.succ_pos 1) (Nat.succ_pos 1), chGammaRaw_eq_sum,
      show ([th, ph] : List Sym).length = 2 from rfl,
      Finset.sum_range_succ, Finset.sum_range_one]
    simp only [hx0, hx1, hm00, hm01, hm10, hm11, hgi00, hgi01, hgi10,
      hdth0, hdph0, hdth1, hdph1, hdthss, hdphss]
    rw [div_eq_iff h2]
    ring
  have hg001 : getv M.gammas [0, 0, 1] = 0 := by
    rw [hgam, getv_christoffelLoop pdiff [th, ph] (sphereMetric s) gi 0 0 1
      (Nat.succ_pos 1) (Nat.succ_pos 1) (Nat.le.refl), chGammaRaw_eq_sum,
      show ([th, ph] : List Sym).length = 2 from rfl,
      Finset.sum_range_succ, Finset.sum_range_one]
    simp only [hx0, hx1, hm00, hm01, hm10, hm11, hgi00, hgi01, hgi10,
      hdth0, hdph0, hdth1, hdph1, hdthss, hdphss]
    rw [div_eq_iff h2]
    ring
  have hg010 : getv M.gammas [0, 1, 0] = 0 := by
    rw [hgam, getv_christoffelLoop pdiff [th, ph] (sphereMetric s) gi 0 1 0
      (Nat.succ_pos 1) (Nat.le.refl) (Nat.succ_pos 1), chGammaRaw_eq_sum,
      show ([th, ph] : List Sym).length = 2 from rfl,
      Finset.sum_range_succ, Finset.sum_range_one]
    simp only [hx0, hx1, hm00, hm01, hm10, hm11, hgi00, hgi01, hgi10,
      hdth0, hdph0, hdth1, hdph1, hdthss, hdphss]
    rw [div_eq_iff h2]
    ring
  have hg011 : getv M.gammas [0, 1, 1] = -(s * c) := by
    rw [hgam, getv_christoffelLoop pdiff [th, ph] (sphereMetric s) gi 0 1 1
      (Nat.succ_pos 1) (Nat.le.refl) (Nat.le.refl), chGammaRaw_eq_sum,
      show ([th, ph] : List Sym).length = 2 from rfl,
      Finset.sum_range_succ, Finset.sum_range_one]
    simp only [hx0, hx1, hm00, hm01, hm10, hm11, hgi00, hgi01, hgi10,
      hdth0, hdph0, hdth1, hdph1, hdthss, hdphss]
    rw [div_eq_iff h2]
    ring
  have hg100 : getv M.gammas [1, 0, 0] = 0 := by
    rw [hgam, getv_christoffelLoop pdiff [th, ph] (sphereMetric s) gi 1 0 0
      (Nat.le.refl) (Nat.succ_pos 1) (Nat.succ_pos 1), chGammaRaw_eq_sum,
      show ([th, ph] : List Sym).length = 2 from rfl,
      Finset.sum_range_succ, Finset.sum_range_one]
    simp only [hx0, hx1, hm00, hm01, hm10, hm11, hgi00, hgi01, hgi10,
      hdth0, hdph0, hdth1, hdph1, hdthss, hdphss]
    rw [div_eq_iff h2]
    ring
  have hg101 : getv M.gammas [1, 0, 1] = gi.entry 1 1 * (s * c) := by
    rw [hgam, getv_christoffelLoop pdiff [th, ph] (sphereMetric s) gi 1 0 1
      (Nat.le.refl) (Nat.succ_pos 1) (Nat.le.refl), chGammaRaw_eq_sum,
      show ([th, ph] : List Sym).length = 2 from rfl,
      Finset.sum_range_succ, Finset.sum_range_one]
    simp only [hx0, hx1, hm00, hm01, hm10, hm11, hgi00, hgi01, hgi10,
      hdth0, hdph0, hdth1, hdph1, hdthss, hdphss]
    rw [div_eq_iff h2]
    ring
  have hg110 : getv M.gammas [1, 1, 0] = gi.entry 1 1 * (s * c) := by
    rw [hgam, getv_christoffelLoop pdiff [th, ph] (sphereMetric s) gi 1 1 0
      (Nat.le.refl) (Nat.le.refl) (Nat.succ_pos 1), chGammaRaw_eq_sum,
      show ([th, ph] : List Sym).length = 2 from rfl,
      Finset.sum_range_succ, Finset.sum_range_one]
    simp only [hx0, hx1, hm00, hm01, hm10, hm11, hgi00, hgi01, hgi10,
      hdth0, hdph0, hdth1, hdph1, hdthss, hdphss]
    rw [div_eq_iff h2]
    ring
  have hg111 : getv M.gammas [1, 1, 1] = 0 := by
    rw [hgam, getv_christoffelLoop pdiff [th, ph] (sphereMetric s) gi 1 1 1
      (Nat.le.refl) (Nat.le.refl) (Nat.le.refl), chGammaRaw_eq_sum,
      show ([th, ph] : List Sym).length = 2 from rfl,
      Finset.sum_range_succ, Finset.sum_range_one]
    simp only [hx0, hx1, hm00, hm01, hm10, hm11, hgi00, hgi01, hgi10,
      hdth0, hdph0, hdth1, hdph1, hdthss, hdphss]
    rw [div_eq_iff h2]
    ring
  obtain ⟨RT, hRT, hRTman, hRTpos, hRTget⟩ := riemannBuild_ok M pdiff simpf hsimp
  have hcoords : RT.man.coords = [th, ph] := by rw [hRTman, hMeq]
  have hnm : namesMapOf ([th, ph] : List Sym) = [(th, 0), (ph, 1)] := by
    show assignA (assignA [] th 0) ph 1 = _
    rw [show assignA ([] : List (Sym × Nat)) th 0 = [(th, 0)] from rfl]
    show (if th = ph then ((ph, 1) : Sym × Nat) :: [] else (th, 0) :: assignA [] ph 1) = _
    rw [if_neg hsym]
    rfl
  have hlth : lookupA [(th, 0), (ph, 1)] th = some 0 := by
    rw [lookupA_cons, if_pos rfl]
  have hlph : lookupA [(th, 0), (ph, 1)] ph = some 1 := by
    rw [lookupA_cons, if_neg hsym, lookupA_cons, if_pos rfl]
  have hb0 : (0 : Nat) < M.dims := by rw [hdims]; norm_num
  have hb1 : (1 : Nat) < M.dims := by rw [hdims]; norm_num
  refine ⟨RT, hRT, ?_, ?_, ?_, ?_⟩
  · rw [Tensor.getItem, hcoords, hnm,
      getItemE_names [(th, 0), (ph, 1)] RT.vals th ph th ph 0 1 0 1 hlth hlph hlth hlph,
      hRTget, getv_riemannAssemble M pdiff 0 1 0 1 hb0 hb1 hb0 hb1, hdims,
      Finset.sum_range_succ, Finset.sum_range_one]
    simp only [hMx0, hMx1, hg000, hg001, hg010, hg011, hg100, hg101, hg110, hg111,
      hdthsc, hdthcot, hdph0]
    rw [Except.ok.injEq]
    linear_combination (c * c) * hgi11
  · rw [Tensor.getItem, hcoords, hnm,
      getItemE_names [(th, 0), (ph, 1)] RT.vals th ph ph th 0 1 1 0 hlth hlph hlph hlth,
      hRTget, getv_riemannAssemble M pdiff 0 1 1 0 hb0 hb1 hb1 hb0, hdims,
      Finset.sum_range_succ, Finset.sum_range_one]
    simp only [hMx0, hMx1, hg000, hg001, hg010, hg011, hg100, hg101, hg110, hg111,
      hdthsc, hdthcot, hdph0]
    rw [Except.ok.injEq]
    linear_combination (-(c * c)) * hgi11
  · rw [Tensor.getItem, hcoords, hnm,
      getItemE_names [(th, 0), (ph, 1)] RT.vals ph th ph th 1 0 1 0 hlph hlth hlph hlth,
      hRTget, getv_riemannAssemble M pdiff 1 0 1 0 hb1 hb0 hb1 hb0, hdims,
      Finset.sum_range_succ, Finset.sum_range_one]
    simp only [hMx0, hMx1, hg000, hg001, hg010, hg011, hg100, hg101, hg110, hg111,
      hdthsc, hdthcot, hdph0]
    rw [Except.ok.injEq]
    linear_combination (1 - gi.entry 1 1 * (c * c)) * hgi11 - gi.entry 1 1 * hsc
  · rw [Tensor.getItem, hcoords, hnm,
      getItemE_names [(th, 0), (ph, 1)] RT.vals ph th th ph 1 0 0 1 hlph hlth hlth hlph,
      hRTget, getv_riemannAssemble M pdiff 1 0 0 1 hb1 hb0 hb0 hb1, hdims,
      Finset.sum_range_succ, Finset.sum_range_one]
    simp only [hMx0, hMx1, hg000, hg001, hg010, hg011, hg100, hg101, hg110, hg111,
      hdthsc, hdthcot, hdph0]
    rw [Except.ok.injEq]
    linear_combination (gi.entry 1 1 * (c * c) - 1) * hgi11 + gi.entry 1 1 * hsc

/-- Witness for C3 at `sin θ = 2`, `cos θ = 7` in `ZMod 13`. -/
theorem C3_sphere_riemann_witness :
    ∃ RT, RiemannTensor.build sampleMSphere pdiffSphere (fun v => v) = .ok RT ∧
      Tensor.getItem RT [Slot.name 0, Slot.name 1, Slot.name 0, Slot.name 1] =
        .ok ((2 : K) * 2) ∧
      Tensor.getItem RT [Slot.name 0, Slot.name 1, Slot.name 1, Slot.name 0] =
        .ok (-((2 : K) * 2)) ∧
      Tensor.getItem RT [Slot.name 1, Slot.name 0, Slot.name 1, Slot.name 0] =
        .ok 1 ∧
      Tensor.getItem RT [Slot.name 1, Slot.name 0, Slot.name 0, Slot.name 1] =
        .ok (-1) :=
  C3_sphere_riemann eInvSphere pdiffSphere (fun v => v) 0 1 2 7 giSphere sampleMSphere
    (by decide) (by decide) (by decide) rfl rfl rfl rfl rfl (by decide) rfl
    (by decide) (by decide) (by decide) (by decide) (by decide) (by decide)
    (by decide) (by decide) (fun v => rfl) rfl

end Claim3

end DG
